import Mathlib

/-!
Verification of the nanobit binary serialization core (src/buffer.rs, src/ser.rs,
src/de.rs, src/error.rs, src/lib.rs) against its specification.

The embedding models bytes as `Nat` (each byte < 256 where it matters), byte
sequences as `List Nat`, Rust `u64` arithmetic as `Nat` with explicit `% 2 ^ 64`
where overflow can occur, and fallible operations as explicit result values.
IEEE-754 floats are represented by their bit patterns, exactly as the source
stores them (`to_bits` / `from_bits`).  Signed integers are represented as
`Int` values and serialized through their two's-complement bit pattern, exactly
as the source's `as uN` casts do.

The mutable `ReadBuffer` (`&mut self` methods returning `Result`) is modelled
in state-passing style: each operation returns the value-or-error together with
the buffer state after the call, which captures that a failing composite read
(for example `read_varint`) leaves the cursor wherever its internal `read_u8`
calls advanced it.
-/

namespace Nanobit

/-- Error type, from src/error.rs (`enum Error`). -/
inductive Error where
  | invalidFormat (msg : String)
  | unexpectedEof
  | bufferOverflow
  | notEnoughData
  | unsupportedVersion (v : Nat)
  | compression (msg : String)
  | io (msg : String)
  | serde (msg : String)
  | custom (msg : String)
deriving DecidableEq, Repr

/-- Message of `Deserializer::new` for inputs shorter than the 5-byte header. -/
def tooShortMsg : String := "Data too short for header"

/-- Message of `Deserializer::new` for a wrong magic token. -/
def badMagicMsg : String := "Invalid magic bytes"

/-- Message of `ReadBuffer::read_varint` when the shift count reaches 64. -/
def varintLongMsg : String := "Varint too long"

/-- Message of `ReadBuffer::read_str` for invalid UTF-8. -/
def badUtf8Msg : String := "Invalid UTF-8 string"

/-- Message of `deserialize_char` for a non-scalar code point. -/
def badCharMsg : String := "Invalid char value"

/-- Message of `deserialize_option` for a tag other than 0 or 1. -/
def badOptionMsg : String := "Invalid option tag"

/-- Message of `deserialize_any` (no dynamic decoding). -/
def anyUnsupportedMsg : String := "deserialize_any is not supported"

/-- Message of `deserialize_tuple` on a length mismatch
(`format!("Tuple length mismatch: expected {len}, got {expected_len}")`). -/
def tupleLenMsg (expected got : Nat) : String :=
  "Tuple length mismatch: expected " ++ toString expected ++ ", got " ++ toString got

/-- Message of `deserialize_struct` on a field count mismatch. -/
def structLenMsg (expected got : Nat) : String :=
  "Struct field count mismatch: expected " ++ toString expected ++ ", got " ++ toString got

/-- Message of `tuple_variant` on a length mismatch. -/
def tupleVariantLenMsg (expected got : Nat) : String :=
  "Tuple variant length mismatch: expected " ++ toString expected ++ ", got " ++ toString got

/-- Message of `struct_variant` on a field count mismatch. -/
def structVariantLenMsg (expected got : Nat) : String :=
  "Struct variant field count mismatch: expected " ++ toString expected ++ ", got " ++ toString got

/-- Error produced by the serde-derived enum visitor when the decoded variant
index does not name a variant (goes through `Error::custom`, i.e.
`Error::Serde`).  Modelled from the spec: the derived visitor itself is
generated code outside src/. -/
def unknownVariantMsg (got : Nat) : String :=
  "unknown variant index " ++ toString got

/-- `MAGIC`, from src/lib.rs: `pub const MAGIC: &[u8] = b"NANO";`. -/
def MAGIC : List Nat := [78, 65, 78, 79]

/-- `VERSION`, from src/lib.rs: `pub const VERSION: u8 = 1;`. -/
def VERSION : Nat := 1

/-- Little-endian byte decomposition: `to_le_bytes` of a `k`-byte unsigned
integer given by its bit pattern `n`. -/
def leBytes : Nat → Nat → List Nat
  | 0, _ => []
  | k + 1, n => n % 256 :: leBytes k (n / 256)

/-- Little-endian recomposition: `from_le_bytes`. -/
def fromLE : List Nat → Nat
  | [] => 0
  | x :: xs => x + 256 * fromLE xs

/-- Byte sequence appended by `WriteBuffer::write_varint` (src/buffer.rs):
`while value >= 0x80 { write_u8((value as u8) | 0x80); value >>= 7 }`
followed by `write_u8(value as u8)`. -/
def writeVarint (value : Nat) : List Nat :=
  if h : 128 ≤ value then (value % 256 ||| 128) :: writeVarint (value >>> 7)
  else [value % 256]
termination_by value
decreasing_by
  simp only [Nat.shiftRight_eq_div_pow]
  exact Nat.div_lt_self (by omega) (by norm_num)

/-- Two's-complement bit pattern of a signed integer in `k` bytes
(the effect of Rust's `as uN` cast performed by `write_iN`). -/
def toTwos (i : Int) (k : Nat) : Nat := (i % (2 ^ (8 * k) : Int)).toNat

/-- Signed reinterpretation of a `k`-byte bit pattern
(the effect of Rust's `as iN` cast performed by `read_iN`). -/
def toSigned (n : Nat) (k : Nat) : Int :=
  if n < 2 ^ (8 * k - 1) then (n : Int) else (n : Int) - 2 ^ (8 * k)

/-- Unicode scalar value test performed by `char::from_u32` (standard library,
outside src/): not a surrogate and at most 0x10FFFF. -/
def isValidChar (n : Nat) : Bool :=
  decide (n < 0xD800) || (decide (0xE000 ≤ n) && decide (n < 0x110000))

/-- Continuation byte test, 0x80..0xBF. -/
def contB (x : Nat) : Bool := decide (128 ≤ x) && decide (x < 192)

/-- Strict UTF-8 validity of a byte sequence.  Modelled from the spec:
`core::str::from_utf8` (standard library, outside src/) accepts exactly
well-formed UTF-8 — no overlong forms, no surrogates, max U+10FFFF. -/
def utf8Valid : List Nat → Bool
  | [] => true
  | b :: rest =>
    if b < 128 then utf8Valid rest
    else if 194 ≤ b ∧ b ≤ 223 then
      match rest with
      | c1 :: r => contB c1 && utf8Valid r
      | [] => false
    else if b = 224 then
      match rest with
      | c1 :: c2 :: r => decide (160 ≤ c1) && decide (c1 < 192) && contB c2 && utf8Valid r
      | _ => false
    else if 225 ≤ b ∧ b ≤ 236 then
      match rest with
      | c1 :: c2 :: r => contB c1 && contB c2 && utf8Valid r
      | _ => false
    else if b = 237 then
      match rest with
      | c1 :: c2 :: r => decide (128 ≤ c1) && decide (c1 < 160) && contB c2 && utf8Valid r
      | _ => false
    else if 238 ≤ b ∧ b ≤ 239 then
      match rest with
      | c1 :: c2 :: r => contB c1 && contB c2 && utf8Valid r
      | _ => false
    else if b = 240 then
      match rest with
      | c1 :: c2 :: c3 :: r =>
        decide (144 ≤ c1) && decide (c1 < 192) && contB c2 && contB c3 && utf8Valid r
      | _ => false
    else if 241 ≤ b ∧ b ≤ 243 then
      match rest with
      | c1 :: c2 :: c3 :: r => contB c1 && contB c2 && contB c3 && utf8Valid r
      | _ => false
    else if b = 244 then
      match rest with
      | c1 :: c2 :: c3 :: r =>
        decide (128 ≤ c1) && decide (c1 < 144) && contB c2 && contB c3 && utf8Valid r
      | _ => false
    else false

/-- `WriteBuffer` (src/buffer.rs), modelled by its accumulated bytes.  The
capacity field only pre-allocates and never changes observable output, so it
is not modelled. -/
structure WriteBuffer where
  data : List Nat
deriving DecidableEq, Repr

/-- `WriteBuffer::new` / `with_capacity`: empty data. -/
def WriteBuffer.new : WriteBuffer := ⟨[]⟩

/-- `WriteBuffer::write_u8`: push one byte (the argument is a `u8`). -/
def WriteBuffer.write_u8 (w : WriteBuffer) (v : Nat) : WriteBuffer := ⟨w.data ++ [v % 256]⟩

/-- `WriteBuffer::write_varint`: the loop of `write_u8` calls appends exactly
`writeVarint value`. -/
def WriteBuffer.write_varint (w : WriteBuffer) (value : Nat) : WriteBuffer :=
  ⟨w.data ++ writeVarint value⟩

/-- `ReadBuffer` (src/buffer.rs): a borrowed byte slice plus a cursor. -/
structure ReadBuffer where
  data : List Nat
  position : Nat
deriving DecidableEq, Repr

/-- Result of a `&mut self` read: the value or error, together with the buffer
state after the call (failures keep the state reached so far). -/
inductive RResult (α : Type) where
  | ok (val : α) (buf : ReadBuffer)
  | err (e : Error) (buf : ReadBuffer)
deriving DecidableEq, Repr

/-- The buffer state carried by a result. -/
def RResult.buf : RResult α → ReadBuffer
  | .ok _ b => b
  | .err _ b => b

/-- The not-yet-consumed bytes of a buffer. -/
def ReadBuffer.rest (b : ReadBuffer) : List Nat := b.data.drop b.position

/-- `ReadBuffer::new`. -/
def ReadBuffer.new (data : List Nat) : ReadBuffer := ⟨data, 0⟩

/-- `ReadBuffer::read_u8`: bounds check, then index and advance. -/
def ReadBuffer.read_u8 (b : ReadBuffer) : RResult Nat :=
  if b.position ≥ b.data.length then .err .unexpectedEof b
  else .ok (b.data.getD b.position 0) ⟨b.data, b.position + 1⟩

/-- `ReadBuffer::read_bytes`: bounds check, then slice `[position..position+len]`
and advance. -/
def ReadBuffer.read_bytes (b : ReadBuffer) (len : Nat) : RResult (List Nat) :=
  if b.position + len > b.data.length then .err .unexpectedEof b
  else .ok ((b.data.drop b.position).take len) ⟨b.data, b.position + len⟩

/-- `ReadBuffer::read_u16` = `read_bytes(2)` then `from_le_bytes`. -/
def ReadBuffer.read_u16 (b : ReadBuffer) : RResult Nat :=
  match b.read_bytes 2 with
  | .err e b2 => .err e b2
  | .ok bs b2 => .ok (fromLE bs) b2

/-- `ReadBuffer::read_u32` = `read_bytes(4)` then `from_le_bytes`. -/
def ReadBuffer.read_u32 (b : ReadBuffer) : RResult Nat :=
  match b.read_bytes 4 with
  | .err e b2 => .err e b2
  | .ok bs b2 => .ok (fromLE bs) b2

/-- `ReadBuffer::read_u64` = `read_bytes(8)` then `from_le_bytes`. -/
def ReadBuffer.read_u64 (b : ReadBuffer) : RResult Nat :=
  match b.read_bytes 8 with
  | .err e b2 => .err e b2
  | .ok bs b2 => .ok (fromLE bs) b2

/-- The loop body of `ReadBuffer::read_varint`: `result` and `shift` are the
loop state; `u64` arithmetic is `Nat` with the shifted chunk reduced mod
`2 ^ 64` exactly where Rust's `<<` on `u64` discards high bits. -/
def readVarintLoop (b : ReadBuffer) (result shift : Nat) : RResult Nat :=
  if _h : 64 ≤ shift then .err (.invalidFormat varintLongMsg) b
  else
    match b.read_u8 with
    | .err e b2 => .err e b2
    | .ok byte b2 =>
      let result2 := result ||| ((byte &&& 127) <<< shift) % 2 ^ 64
      if byte &&& 128 = 0 then .ok result2 b2
      else readVarintLoop b2 result2 (shift + 7)
termination_by 64 - shift
decreasing_by omega

/-- `ReadBuffer::read_varint`. -/
def ReadBuffer.read_varint (b : ReadBuffer) : RResult Nat := readVarintLoop b 0 0

/-- `ReadBuffer::read_byte_slice`: varint length, then that many raw bytes. -/
def ReadBuffer.read_byte_slice (b : ReadBuffer) : RResult (List Nat) :=
  match b.read_varint with
  | .err e b2 => .err e b2
  | .ok len b2 => b2.read_bytes len

/-- `ReadBuffer::read_str`: length-prefixed bytes, then UTF-8 validation.
The returned borrowed `&str` is modelled by its byte sequence. -/
def ReadBuffer.read_str (b : ReadBuffer) : RResult (List Nat) :=
  match b.read_byte_slice with
  | .err e b2 => .err e b2
  | .ok bs b2 =>
    if utf8Valid bs then .ok bs b2 else .err (.invalidFormat badUtf8Msg) b2

/-- `ReadBuffer::peek_u8`: non-consuming read. -/
def ReadBuffer.peek_u8 (b : ReadBuffer) : RResult Nat :=
  if b.position ≥ b.data.length then .err .unexpectedEof b
  else .ok (b.data.getD b.position 0) b

/-- `ReadBuffer::skip`: bounds-checked cursor advance. -/
def ReadBuffer.skip (b : ReadBuffer) (count : Nat) : RResult Unit :=
  if b.position + count > b.data.length then .err .unexpectedEof b
  else .ok () ⟨b.data, b.position + count⟩

/-- `ReadBuffer::remaining`. -/
def ReadBuffer.remaining (b : ReadBuffer) : Nat := b.data.length - b.position

/-- Integer widths handled by the parallel `write_u8/u16/u32/u64` and
`read_u8/u16/u32/u64` method families. -/
inductive Wd where
  | w8
  | w16
  | w32
  | w64
deriving DecidableEq, Repr

/-- Width in bytes. -/
def Wd.bytes : Wd → Nat
  | .w8 => 1
  | .w16 => 2
  | .w32 => 4
  | .w64 => 8

mutual

/-- Static shape information the caller's `Deserialize` impl supplies to the
positional decoder: which `deserialize_*` entry point is driven, field counts,
element shapes, and the declared variant list of a tagged union. -/
inductive Shape where
  | sBool
  | sUInt (w : Wd)
  | sInt (w : Wd)
  | sF32
  | sF64
  | sChar
  | sStr
  | sBytes
  | sOption (s : Shape)
  | sUnit
  | sTuple (ss : List Shape)
  | sStruct (ss : List Shape)
  | sSeq (s : Shape)
  | sMap (ks vs : Shape)
  | sEnum (vars : List VariantShape)

/-- Shape of one declared enum variant. -/
inductive VariantShape where
  | unit
  | newtype (s : Shape)
  | tuple (ss : List Shape)
  | struct (ss : List Shape)

end

mutual

/-- The serde data model values the engine traverses.  Unsigned integers and
floats carry their bit pattern; signed integers carry the `Int` value; strings
and byte blobs carry their byte sequences; chars carry the code point. -/
inductive Value where
  | vBool (b : Bool)
  | vUInt (w : Wd) (n : Nat)
  | vInt (w : Wd) (i : Int)
  | vF32 (bits : Nat)
  | vF64 (bits : Nat)
  | vChar (n : Nat)
  | vStr (bs : List Nat)
  | vBytes (bs : List Nat)
  | vNone
  | vSome (v : Value)
  | vUnit
  | vTuple (vs : List Value)
  | vStruct (vs : List Value)
  | vSeq (vs : List Value)
  | vMap (ps : List (Value × Value))
  | vVariant (idx : Nat) (p : VariantValue)

/-- Payload of a tagged-union value, one constructor per serde variant shape. -/
inductive VariantValue where
  | unit
  | newtype (v : Value)
  | tuple (vs : List Value)
  | struct (vs : List Value)

end

mutual

/-- Body bytes appended by the `Serializer` (src/ser.rs) when visiting a value:
each `serialize_*` method's `WriteBuffer` appends, in order. -/
def encodeValue : Value → List Nat
  | .vBool b => [if b then 1 else 0]
  | .vUInt w n => leBytes w.bytes n
  | .vInt w i => leBytes w.bytes (toTwos i w.bytes)
  | .vF32 bits => leBytes 4 bits
  | .vF64 bits => leBytes 8 bits
  | .vChar n => leBytes 4 n
  | .vStr bs => writeVarint bs.length ++ bs
  | .vBytes bs => writeVarint bs.length ++ bs
  | .vNone => [0]
  | .vSome v => 1 :: encodeValue v
  | .vUnit => []
  | .vTuple vs => writeVarint vs.length ++ encodeList vs
  | .vStruct vs => writeVarint vs.length ++ encodeList vs
  | .vSeq vs => writeVarint vs.length ++ encodeList vs
  | .vMap ps => writeVarint ps.length ++ encodePairs ps
  | .vVariant idx p => writeVarint idx ++ encodePayload p

/-- Elements or fields of a compound value, encoded in declared order. -/
def encodeList : List Value → List Nat
  | [] => []
  | v :: vs => encodeValue v ++ encodeList vs

/-- Map entries, each key then value. -/
def encodePairs : List (Value × Value) → List Nat
  | [] => []
  | (k, v) :: ps => encodeValue k ++ encodeValue v ++ encodePairs ps

/-- Variant payload after the variant index: `serialize_unit_variant` writes
nothing more, `serialize_newtype_variant` writes the payload,
`serialize_tuple_variant` / `serialize_struct_variant` write the arity then
the fields. -/
def encodePayload : VariantValue → List Nat
  | .unit => []
  | .newtype v => encodeValue v
  | .tuple vs => writeVarint vs.length ++ encodeList vs
  | .struct vs => writeVarint vs.length ++ encodeList vs

end

mutual

/-- Well-formedness of a value at a shape: the widths and ranges the Rust types
enforce statically (`u8` < 256, lengths are `usize` < 2^64, variant index is a
`u32`, strings are valid UTF-8, chars are scalar values, bytes are `u8`s). -/
def wfValue : Shape → Value → Bool
  | .sBool, .vBool _ => true
  | .sUInt w, .vUInt w2 n => decide (w = w2) && decide (n < 2 ^ (8 * w.bytes))
  | .sInt w, .vInt w2 i =>
    decide (w = w2) && decide (-(2 ^ (8 * w.bytes - 1) : Int) ≤ i)
      && decide (i < (2 ^ (8 * w.bytes - 1) : Int))
  | .sF32, .vF32 bits => decide (bits < 2 ^ 32)
  | .sF64, .vF64 bits => decide (bits < 2 ^ 64)
  | .sChar, .vChar n => isValidChar n
  | .sStr, .vStr bs => utf8Valid bs && decide (bs.length < 2 ^ 64)
  | .sBytes, .vBytes bs => bs.all (fun x => decide (x < 256)) && decide (bs.length < 2 ^ 64)
  | .sOption _, .vNone => true
  | .sOption s, .vSome v => wfValue s v
  | .sUnit, .vUnit => true
  | .sTuple ss, .vTuple vs => decide (vs.length < 2 ^ 64) && wfList ss vs
  | .sStruct ss, .vStruct vs => decide (vs.length < 2 ^ 64) && wfList ss vs
  | .sSeq s, .vSeq vs => decide (vs.length < 2 ^ 64) && wfSeq s vs
  | .sMap ks vs, .vMap ps => decide (ps.length < 2 ^ 64) && wfPairs ks vs ps
  | .sEnum vars, .vVariant idx p =>
    decide (idx < 2 ^ 32) &&
      (match vars[idx]? with
       | none => false
       | some vsh => wfPayload vsh p)
  | _, _ => false

/-- Pairwise well-formedness of fields against their shapes. -/
def wfList : List Shape → List Value → Bool
  | [], [] => true
  | s :: ss, v :: vs => wfValue s v && wfList ss vs
  | _, _ => false

/-- Well-formedness of homogeneous sequence elements. -/
def wfSeq : Shape → List Value → Bool
  | _, [] => true
  | s, v :: vs => wfValue s v && wfSeq s vs

/-- Well-formedness of map entries. -/
def wfPairs : Shape → Shape → List (Value × Value) → Bool
  | _, _, [] => true
  | ks, vs, (k, v) :: ps => wfValue ks k && wfValue vs v && wfPairs ks vs ps

/-- Well-formedness of a variant payload against the declared variant shape. -/
def wfPayload : VariantShape → VariantValue → Bool
  | .unit, .unit => true
  | .newtype s, .newtype v => wfValue s v
  | .tuple ss, .tuple vs => decide (vs.length < 2 ^ 64) && wfList ss vs
  | .struct ss, .struct vs => decide (vs.length < 2 ^ 64) && wfList ss vs
  | _, _ => false

end

mutual

/-- `true` iff the value contains no tuple-shaped enum variant anywhere. -/
def noTV : Value → Bool
  | .vBool _ => true
  | .vUInt _ _ => true
  | .vInt _ _ => true
  | .vF32 _ => true
  | .vF64 _ => true
  | .vChar _ => true
  | .vStr _ => true
  | .vBytes _ => true
  | .vNone => true
  | .vSome v => noTV v
  | .vUnit => true
  | .vTuple vs => noTVList vs
  | .vStruct vs => noTVList vs
  | .vSeq vs => noTVList vs
  | .vMap ps => noTVPairs ps
  | .vVariant _ .unit => true
  | .vVariant _ (.newtype v) => noTV v
  | .vVariant _ (.tuple _) => false
  | .vVariant _ (.struct vs) => noTVList vs

/-- `noTV` over a list of values. -/
def noTVList : List Value → Bool
  | [] => true
  | v :: vs => noTV v && noTVList vs

/-- `noTV` over map entries. -/
def noTVPairs : List (Value × Value) → Bool
  | [] => true
  | (k, v) :: ps => noTV k && noTV v && noTVPairs ps

end

mutual

/-- The `Deserializer` (src/de.rs) driven by the caller's shape: each case is
one `deserialize_*` method.  `sBool` reads one byte and visits `value != 0`;
scalar cases read the fixed-width pattern; `sChar` validates the code point;
`sOption` dispatches on the tag byte; `sTuple`/`sStruct` read the count prefix
and compare it with the static arity; `sSeq`/`sMap` read the count prefix and
decode exactly that many elements (the `SeqDeserializer`/`MapDeserializer`
countdown); `sEnum` reads the variant index and dispatches on the declared
variant shape (the serde-derived visitor errors on an out-of-range index). -/
def decodeValue : Shape → ReadBuffer → RResult Value
  | .sBool, b =>
    match b.read_u8 with
    | .err e b2 => .err e b2
    | .ok x b2 => .ok (.vBool (x != 0)) b2
  | .sUInt .w8, b =>
    match b.read_u8 with
    | .err e b2 => .err e b2
    | .ok n b2 => .ok (.vUInt .w8 n) b2
  | .sUInt .w16, b =>
    match b.read_u16 with
    | .err e b2 => .err e b2
    | .ok n b2 => .ok (.vUInt .w16 n) b2
  | .sUInt .w32, b =>
    match b.read_u32 with
    | .err e b2 => .err e b2
    | .ok n b2 => .ok (.vUInt .w32 n) b2
  | .sUInt .w64, b =>
    match b.read_u64 with
    | .err e b2 => .err e b2
    | .ok n b2 => .ok (.vUInt .w64 n) b2
  | .sInt w, b =>
    match (match w with
           | .w8 => b.read_u8
           | .w16 => b.read_u16
           | .w32 => b.read_u32
           | .w64 => b.read_u64) with
    | .err e b2 => .err e b2
    | .ok n b2 => .ok (.vInt w (toSigned n w.bytes)) b2
  | .sF32, b =>
    match b.read_u32 with
    | .err e b2 => .err e b2
    | .ok bits b2 => .ok (.vF32 bits) b2
  | .sF64, b =>
    match b.read_u64 with
    | .err e b2 => .err e b2
    | .ok bits b2 => .ok (.vF64 bits) b2
  | .sChar, b =>
    match b.read_u32 with
    | .err e b2 => .err e b2
    | .ok n b2 =>
      if isValidChar n then .ok (.vChar n) b2 else .err (.invalidFormat badCharMsg) b2
  | .sStr, b =>
    match b.read_str with
    | .err e b2 => .err e b2
    | .ok bs b2 => .ok (.vStr bs) b2
  | .sBytes, b =>
    match b.read_byte_slice with
    | .err e b2 => .err e b2
    | .ok bs b2 => .ok (.vBytes bs) b2
  | .sOption s, b =>
    match b.read_u8 with
    | .err e b2 => .err e b2
    | .ok tag b2 =>
      if tag = 0 then .ok .vNone b2
      else if tag = 1 then
        match decodeValue s b2 with
        | .err e b3 => .err e b3
        | .ok v b3 => .ok (.vSome v) b3
      else .err (.invalidFormat badOptionMsg) b2
  | .sUnit, b => .ok .vUnit b
  | .sTuple ss, b =>
    match b.read_varint with
    | .err e b2 => .err e b2
    | .ok n b2 =>
      if n ≠ ss.length then .err (.invalidFormat (tupleLenMsg ss.length n)) b2
      else
        match decodeShapes ss b2 with
        | .err e b3 => .err e b3
        | .ok vs b3 => .ok (.vTuple vs) b3
  | .sStruct ss, b =>
    match b.read_varint with
    | .err e b2 => .err e b2
    | .ok n b2 =>
      if n ≠ ss.length then .err (.invalidFormat (structLenMsg ss.length n)) b2
      else
        match decodeShapes ss b2 with
        | .err e b3 => .err e b3
        | .ok vs b3 => .ok (.vStruct vs) b3
  | .sSeq s, b =>
    match b.read_varint with
    | .err e b2 => .err e b2
    | .ok n b2 =>
      match decodeSeq s n b2 with
      | .err e b3 => .err e b3
      | .ok vs b3 => .ok (.vSeq vs) b3
  | .sMap ks vs, b =>
    match b.read_varint with
    | .err e b2 => .err e b2
    | .ok n b2 =>
      match decodeMap ks vs n b2 with
      | .err e b3 => .err e b3
      | .ok ps b3 => .ok (.vMap ps) b3
  | .sEnum vars, b =>
    match b.read_varint with
    | .err e b2 => .err e b2
    | .ok idx b2 =>
      if h : idx < vars.length then decodeVariant (vars.get ⟨idx, h⟩) idx b2
      else .err (.serde (unknownVariantMsg idx)) b2
termination_by s _ => (2 * sizeOf s, 0)
decreasing_by
  all_goals simp_wf
  all_goals
    first
      | (apply Prod.Lex.right
         omega)
      | (apply Prod.Lex.left
         simp_arith
         try omega
         done)
      | (apply Prod.Lex.left
         have hm := List.sizeOf_lt_of_mem (List.getElem_mem h)
         simp_arith
         omega)

/-- The `VariantAccess` methods of `EnumDeserializer` (src/de.rs), dispatched
on the declared variant shape.  `tuple_variant` reads the arity, checks it,
then delegates to `deserialize_tuple`, which reads and checks an arity prefix
again — the source does read the count twice. -/
def decodeVariant : VariantShape → Nat → ReadBuffer → RResult Value
  | .unit, idx, b => .ok (.vVariant idx .unit) b
  | .newtype s, idx, b =>
    match decodeValue s b with
    | .err e b2 => .err e b2
    | .ok v b2 => .ok (.vVariant idx (.newtype v)) b2
  | .tuple ss, idx, b =>
    match b.read_varint with
    | .err e b2 => .err e b2
    | .ok n1 b2 =>
      if n1 ≠ ss.length then .err (.invalidFormat (tupleVariantLenMsg ss.length n1)) b2
      else
        match b2.read_varint with
        | .err e b3 => .err e b3
        | .ok n2 b3 =>
          if n2 ≠ ss.length then .err (.invalidFormat (tupleLenMsg ss.length n2)) b3
          else
            match decodeShapes ss b3 with
            | .err e b4 => .err e b4
            | .ok vs b4 => .ok (.vVariant idx (.tuple vs)) b4
  | .struct ss, idx, b =>
    match b.read_varint with
    | .err e b2 => .err e b2
    | .ok n b2 =>
      if n ≠ ss.length then .err (.invalidFormat (structVariantLenMsg ss.length n)) b2
      else
        match decodeShapes ss b2 with
        | .err e b3 => .err e b3
        | .ok vs b3 => .ok (.vVariant idx (.struct vs)) b3
termination_by vsh _ _ => (2 * sizeOf vsh, 0)
decreasing_by
  all_goals simp_wf
  all_goals
    first
      | (apply Prod.Lex.right
         omega)
      | (apply Prod.Lex.left
         simp_arith
         try omega
         done)
      | (apply Prod.Lex.left
         have hm := List.sizeOf_lt_of_mem (List.getElem_mem h)
         simp_arith
         omega)

/-- Fields of a tuple/struct pulled one by one through `SeqDeserializer`,
each with its own statically known shape, in declared order. -/
def decodeShapes : List Shape → ReadBuffer → RResult (List Value)
  | [], b => .ok [] b
  | s :: ss, b =>
    match decodeValue s b with
    | .err e b2 => .err e b2
    | .ok v b2 =>
      match decodeShapes ss b2 with
      | .err e b3 => .err e b3
      | .ok vs b3 => .ok (v :: vs) b3
termination_by ss _ => (2 * sizeOf ss, 0)
decreasing_by
  all_goals simp_wf
  all_goals
    first
      | (apply Prod.Lex.right
         omega)
      | (apply Prod.Lex.left
         simp_arith
         try omega
         done)
      | (apply Prod.Lex.left
         have hm := List.sizeOf_lt_of_mem (List.getElem_mem h)
         simp_arith
         omega)

/-- `SeqDeserializer` countdown: decode exactly `n` elements of one shape. -/
def decodeSeq : Shape → Nat → ReadBuffer → RResult (List Value)
  | _, 0, b => .ok [] b
  | s, n + 1, b =>
    match decodeValue s b with
    | .err e b2 => .err e b2
    | .ok v b2 =>
      match decodeSeq s n b2 with
      | .err e b3 => .err e b3
      | .ok vs b3 => .ok (v :: vs) b3
termination_by s n _ => (2 * sizeOf s + 1, n)
decreasing_by
  all_goals simp_wf
  all_goals
    first
      | (apply Prod.Lex.right
         omega)
      | (apply Prod.Lex.left
         simp_arith
         try omega
         done)
      | (apply Prod.Lex.left
         have hm := List.sizeOf_lt_of_mem (List.getElem_mem h)
         simp_arith
         omega)

/-- `MapDeserializer` countdown: decode exactly `n` key-value entries. -/
def decodeMap : Shape → Shape → Nat → ReadBuffer → RResult (List (Value × Value))
  | _, _, 0, b => .ok [] b
  | ks, vs, n + 1, b =>
    match decodeValue ks b with
    | .err e b2 => .err e b2
    | .ok k b2 =>
      match decodeValue vs b2 with
      | .err e b3 => .err e b3
      | .ok v b3 =>
        match decodeMap ks vs n b3 with
        | .err e b4 => .err e b4
        | .ok ps b4 => .ok ((k, v) :: ps) b4
termination_by ks vs n _ => (2 * (sizeOf ks + sizeOf vs) + 1, n)
decreasing_by
  all_goals simp_wf
  all_goals
    first
      | (apply Prod.Lex.right
         omega)
      | (apply Prod.Lex.left
         simp_arith
         try omega
         done)
      | (apply Prod.Lex.left
         have hm := List.sizeOf_lt_of_mem (List.getElem_mem h)
         simp_arith
         omega)

end

/-- `Deserializer::new` (src/de.rs): header length, magic and version checks,
then a `ReadBuffer` over the bytes after the header. -/
def Deserializer.new (data : List Nat) : Except Error ReadBuffer :=
  if data.length < 5 then .error (.invalidFormat tooShortMsg)
  else if data.take 4 ≠ MAGIC then .error (.invalidFormat badMagicMsg)
  else if data.getD 4 0 ≠ VERSION then .error (.unsupportedVersion (data.getD 4 0))
  else .ok (ReadBuffer.new (data.drop 5))

/-- `Serializer::into_bytes` composed with the value traversal, i.e.
`to_bytes` (src/ser.rs): magic, version, then the accumulated body.  For
values of the deep model every sequence/map length is known, so the only
serialty-time error path (unknown-length sequences) cannot occur and the
result is total. -/
def to_bytes (v : Value) : List Nat := MAGIC ++ VERSION :: encodeValue v

/-- `from_bytes` (src/de.rs): header validation, then one value decoded for
the caller's shape; remaining bytes are not inspected. -/
def from_bytes (s : Shape) (data : List Nat) : Except Error Value :=
  match Deserializer.new data with
  | .error e => .error e
  | .ok b =>
    match decodeValue s b with
    | .ok v _ => .ok v
    | .err e _ => .error e

/-! ### Arithmetic and byte-level facts -/

theorem leBytes_length (k n : Nat) : (leBytes k n).length = k := by
  induction k generalizing n with
  | zero => rfl
  | succ k ih => simp [leBytes, ih]

theorem fromLE_leBytes (k n : Nat) (h : n < 2 ^ (8 * k)) : fromLE (leBytes k n) = n := by
  induction k generalizing n with
  | zero =>
    have hn : n = 0 := by simpa using h
    simp [leBytes, fromLE, hn]
  | succ k ih =>
    have hpow : (2 : Nat) ^ (8 * (k + 1)) = 2 ^ (8 * k) * 256 := by
      rw [show 8 * (k + 1) = 8 * k + 8 by omega, pow_add]
      norm_num
    have hdiv : n / 256 < 2 ^ (8 * k) := by omega
    simp only [leBytes, fromLE, ih _ hdiv]
    omega

theorem toTwos_lt (i : Int) (k : Nat) : toTwos i k < 2 ^ (8 * k) := by
  unfold toTwos
  have hM : ((2 ^ (8 * k) : Nat) : Int) = (2 : Int) ^ (8 * k) := by push_cast; ring
  have h0 : (0 : Int) < (2 : Int) ^ (8 * k) := by positivity
  have h1 := Int.emod_lt_of_pos i h0
  have h2 := Int.emod_nonneg i (ne_of_gt h0)
  omega

theorem toSigned_toTwos (w : Wd) (i : Int)
    (h1 : -(2 ^ (8 * w.bytes - 1) : Int) ≤ i) (h2 : i < (2 ^ (8 * w.bytes - 1) : Int)) :
    toSigned (toTwos i w.bytes) w.bytes = i := by
  cases w
  all_goals
    simp only [toTwos, toSigned, Wd.bytes] at h1 h2 ⊢
    norm_num at h1 h2 ⊢
    omega

theorem byteAnd127 (x : Nat) : x &&& 127 = x % 128 := by
  rw [show (127 : Nat) = 2 ^ 7 - 1 by norm_num, show (128 : Nat) = 2 ^ 7 by norm_num]
  exact Nat.and_pow_two_sub_one_eq_mod x 7

theorem byteOr128And127 (x : Nat) : (x ||| 128) &&& 127 = x % 128 := by
  apply Nat.eq_of_testBit_eq
  intro i
  rw [show (127 : Nat) = 2 ^ 7 - 1 by norm_num, show (128 : Nat) = 2 ^ 7 by norm_num]
  simp only [Nat.testBit_and, Nat.testBit_or, Nat.testBit_two_pow_sub_one,
    Nat.testBit_two_pow, Nat.testBit_mod_two_pow]
  by_cases h : i < 7
  · have h2 : ¬(7 = i) := by omega
    simp [h, h2]
  · simp [h]

theorem byteOr128And128 (x : Nat) : (x ||| 128) &&& 128 = 128 := by
  apply Nat.eq_of_testBit_eq
  intro i
  rw [show (128 : Nat) = 2 ^ 7 by norm_num]
  simp only [Nat.testBit_and, Nat.testBit_or, Nat.testBit_two_pow]
  by_cases h : 7 = i <;> simp [h]

theorem smallAnd127 (x : Nat) (h : x < 128) : x &&& 127 = x := by
  rw [byteAnd127]
  exact Nat.mod_eq_of_lt h

theorem smallAnd128 (x : Nat) (h : x < 128) : x &&& 128 = 0 := by
  apply Nat.eq_of_testBit_eq
  intro i
  rw [show (128 : Nat) = 2 ^ 7 by norm_num]
  simp only [Nat.testBit_and, Nat.testBit_two_pow, Nat.zero_testBit]
  by_cases h7 : 7 = i
  · subst h7
    have hx : x < 2 ^ 7 := by
      have h128 : (2 : Nat) ^ 7 = 128 := by norm_num
      omega
    simp [Nat.testBit_lt_two_pow hx]
  · simp [h7]

/-- One varint step merges the 7-bit chunk at `shift` with the remaining
chunks at `shift + 7`. -/
theorem varintChunkOr (n shift : Nat) :
    (((n % 128) <<< shift) ||| ((n >>> 7) <<< (shift + 7))) = n <<< shift := by
  apply Nat.eq_of_testBit_eq
  intro i
  rw [show (128 : Nat) = 2 ^ 7 by norm_num]
  simp only [Nat.testBit_or, Nat.testBit_shiftLeft, Nat.testBit_shiftRight,
    Nat.testBit_mod_two_pow]
  by_cases h1 : shift ≤ i
  · by_cases h2 : shift + 7 ≤ i
    · have h3 : ¬(i - shift < 7) := by omega
      have h4 : 7 + (i - (shift + 7)) = i - shift := by omega
      simp [ge_iff_le, h1, h2, h3, h4]
    · have h3 : i - shift < 7 := by omega
      simp [ge_iff_le, h1, h2, h3]
  · have h2 : ¬(shift + 7 ≤ i) := by omega
    simp [ge_iff_le, h1, h2]

theorem writeVarint_length_pos (n : Nat) : 0 < (writeVarint n).length := by
  unfold writeVarint
  split <;> simp

/-! ### `ReadBuffer` operation lemmas in terms of the unread suffix -/

theorem rest_length (data : List Nat) (pos : Nat) :
    (ReadBuffer.mk data pos).rest.length = data.length - pos := by
  simp [ReadBuffer.rest]

theorem rest_bound (data : List Nat) (pos : Nat) (ys tail : List Nat)
    (hpos : pos ≤ data.length) (h : data.drop pos = ys ++ tail) :
    pos + ys.length ≤ data.length ∧ data.drop (pos + ys.length) = tail := by
  have hlen := congrArg List.length h
  simp [List.length_drop] at hlen
  constructor
  · omega
  · have : data.drop (pos + ys.length) = (data.drop pos).drop ys.length := by
      rw [List.drop_drop]
    rw [this, h, List.drop_left]

theorem read_u8_ok (data : List Nat) (pos x : Nat) (xs : List Nat)
    (h : data.drop pos = x :: xs) :
    ReadBuffer.read_u8 ⟨data, pos⟩ = .ok x ⟨data, pos + 1⟩ := by
  have hlen := congrArg List.length h
  simp [List.length_drop] at hlen
  have hpos : pos < data.length := by omega
  have h0 : (data.drop pos)[0]? = some x := by rw [h]; simp
  rw [List.getElem?_drop] at h0
  simp only [Nat.add_zero] at h0
  simp [ReadBuffer.read_u8, Nat.not_le.mpr hpos, h0]

theorem read_u8_eof (data : List Nat) (pos : Nat) (h : data.drop pos = []) :
    ReadBuffer.read_u8 ⟨data, pos⟩ = .err .unexpectedEof ⟨data, pos⟩ := by
  have hlen := congrArg List.length h
  simp [List.length_drop] at hlen
  have hle : data.length ≤ pos := by omega
  simp [ReadBuffer.read_u8, hle]

theorem read_bytes_ok (data : List Nat) (pos len : Nat) (ys tail : List Nat)
    (hpos : pos ≤ data.length) (hlen : ys.length = len) (h : data.drop pos = ys ++ tail) :
    ReadBuffer.read_bytes ⟨data, pos⟩ len = .ok ys ⟨data, pos + len⟩ := by
  have hb := rest_bound data pos ys tail hpos h
  have hcond : ¬(pos + len > data.length) := by omega
  have htake : (data.drop pos).take len = ys := by
    rw [h, ← hlen, List.take_left]
  simp [ReadBuffer.read_bytes, hcond, htake]

theorem read_bytes_eof (data : List Nat) (pos len : Nat)
    (h : data.length - pos < len) :
    ReadBuffer.read_bytes ⟨data, pos⟩ len = .err .unexpectedEof ⟨data, pos⟩ := by
  have hcond : pos + len > data.length := by omega
  simp [ReadBuffer.read_bytes, hcond]

theorem read_u16_ok (data : List Nat) (pos n : Nat) (tail : List Nat)
    (hpos : pos ≤ data.length) (hn : n < 2 ^ (8 * 2))
    (h : data.drop pos = leBytes 2 n ++ tail) :
    ReadBuffer.read_u16 ⟨data, pos⟩ = .ok n ⟨data, pos + 2⟩ := by
  unfold ReadBuffer.read_u16
  rw [read_bytes_ok data pos 2 (leBytes 2 n) tail hpos (leBytes_length 2 n) h]
  simp [fromLE_leBytes 2 n hn]

theorem read_u32_ok (data : List Nat) (pos n : Nat) (tail : List Nat)
    (hpos : pos ≤ data.length) (hn : n < 2 ^ (8 * 4))
    (h : data.drop pos = leBytes 4 n ++ tail) :
    ReadBuffer.read_u32 ⟨data, pos⟩ = .ok n ⟨data, pos + 4⟩ := by
  unfold ReadBuffer.read_u32
  rw [read_bytes_ok data pos 4 (leBytes 4 n) tail hpos (leBytes_length 4 n) h]
  simp [fromLE_leBytes 4 n hn]

theorem read_u64_ok (data : List Nat) (pos n : Nat) (tail : List Nat)
    (hpos : pos ≤ data.length) (hn : n < 2 ^ (8 * 8))
    (h : data.drop pos = leBytes 8 n ++ tail) :
    ReadBuffer.read_u64 ⟨data, pos⟩ = .ok n ⟨data, pos + 8⟩ := by
  unfold ReadBuffer.read_u64
  rw [read_bytes_ok data pos 8 (leBytes 8 n) tail hpos (leBytes_length 8 n) h]
  simp [fromLE_leBytes 8 n hn]

/-! ### Varint decode/encode agreement -/

theorem varintLoop_ok (n : Nat) : ∀ result shift data pos tail,
    shift ≤ 63 → n < 2 ^ (64 - shift) → pos ≤ data.length →
    data.drop pos = writeVarint n ++ tail →
    readVarintLoop ⟨data, pos⟩ result shift =
      .ok (result ||| n <<< shift) ⟨data, pos + (writeVarint n).length⟩ := by
  induction n using Nat.strong_induction_on with
  | _ n ih =>
    intro result shift data pos tail hshift hn hpos hrest
    have hs64 : ¬64 ≤ shift := by omega
    by_cases hbig : 128 ≤ n
    · have hwv : writeVarint n = (n % 256 ||| 128) :: writeVarint (n >>> 7) := by
        rw [writeVarint]
        simp [hbig]
      rw [hwv] at hrest
      rw [List.cons_append] at hrest
      have hread := read_u8_ok data pos _ _ hrest
      -- bounds: since 2^7 ≤ n < 2^(64-shift), the shift is at most 56
      have hsmall : (2 : Nat) ^ 7 ≤ n := by
        have : (2 : Nat) ^ 7 = 128 := by norm_num
        omega
      have hsh56 : shift ≤ 56 := by
        have hlt : (2 : Nat) ^ 7 < 2 ^ (64 - shift) := lt_of_le_of_lt hsmall hn
        have := (Nat.pow_lt_pow_iff_right (by norm_num : 1 < 2)).mp hlt
        omega
      have hb1 : (n % 256 ||| 128) &&& 128 = 128 := byteOr128And128 _
      have hb2 : (n % 256 ||| 128) &&& 127 = n % 128 := by
        rw [byteOr128And127]
        omega
      have hchunk : ((n % 128) <<< shift) % 2 ^ 64 = (n % 128) <<< shift := by
        apply Nat.mod_eq_of_lt
        rw [Nat.shiftLeft_eq]
        calc (n % 128) * 2 ^ shift ≤ 127 * 2 ^ 56 :=
              Nat.mul_le_mul (by omega) (Nat.pow_le_pow_right (by norm_num) hsh56)
          _ < 2 ^ 64 := by norm_num
      have hn7 : n >>> 7 < 2 ^ (64 - (shift + 7)) := by
        rw [Nat.shiftRight_eq_div_pow]
        rw [Nat.div_lt_iff_lt_mul (by positivity)]
        have hmul : (2 : Nat) ^ (64 - (shift + 7)) * 2 ^ 7 = 2 ^ (64 - shift) := by
          rw [← pow_add]
          congr 1
          omega
        rw [hmul]
        exact hn
      have hrest2 : data.drop (pos + 1) = writeVarint (n >>> 7) ++ tail := by
        have : data.drop (pos + 1) = (data.drop pos).drop 1 := by
          rw [List.drop_drop]
        rw [this, hrest]
        rfl
      have hlen1 := congrArg List.length hrest
      simp only [List.length_drop, List.length_cons] at hlen1
      have hih := ih (n >>> 7)
        (by
          rw [Nat.shiftRight_eq_div_pow]
          exact Nat.div_lt_self (by omega) (by norm_num))
        (result ||| (n % 128) <<< shift) (shift + 7) data (pos + 1) tail
        (by omega) hn7 (by omega) hrest2
      rw [readVarintLoop]
      simp only [hs64, dite_false]
      rw [hread]
      simp only [hb2, hchunk, hb1]
      norm_num
      rw [hih]
      rw [Nat.or_assoc, varintChunkOr]
      rw [hwv]
      simp
      omega
    · have hmod : n % 256 = n := Nat.mod_eq_of_lt (by omega)
      have hwv : writeVarint n = [n] := by
        rw [writeVarint]
        simp [hbig, hmod]
      rw [hwv] at hrest
      have hread := read_u8_ok data pos _ _ hrest
      have hb1 : n &&& 128 = 0 := smallAnd128 n (by omega)
      have hb2 : n &&& 127 = n := smallAnd127 n (by omega)
      have hchunk : (n <<< shift) % 2 ^ 64 = n <<< shift := by
        apply Nat.mod_eq_of_lt
        rw [Nat.shiftLeft_eq]
        calc n * 2 ^ shift < 2 ^ (64 - shift) * 2 ^ shift :=
              mul_lt_mul_of_pos_right hn (by positivity)
          _ = 2 ^ 64 := by
              rw [← pow_add]
              congr 1
              omega
      rw [readVarintLoop]
      simp only [hs64, dite_false]
      rw [hread]
      simp only [hb2, hchunk, hb1]
      simp [hwv]

theorem read_varint_ok (n : Nat) (data : List Nat) (pos : Nat) (tail : List Nat)
    (hn : n < 2 ^ 64) (hpos : pos ≤ data.length)
    (h : data.drop pos = writeVarint n ++ tail) :
    ReadBuffer.read_varint ⟨data, pos⟩ = .ok n ⟨data, pos + (writeVarint n).length⟩ := by
  have key := varintLoop_ok n 0 0 data pos tail (by omega) (by simpa using hn) hpos h
  unfold ReadBuffer.read_varint
  simpa using key

/-- Splitting a prefix of a concatenation at the first block. -/
theorem prefixCases {Q A B : List Nat} (h : Q <+: A ++ B) :
    (Q.length < A.length ∧ Q <+: A) ∨
      (∃ Q2, Q = A ++ Q2 ∧ Q2 <+: B ∧ Q.length = A.length + Q2.length) := by
  obtain ⟨t, ht⟩ := h
  by_cases hlen : Q.length < A.length
  · left
    refine ⟨hlen, ?_⟩
    have hQ : Q = (A ++ B).take Q.length := by
      rw [← ht, List.take_left' rfl]
    rw [hQ, List.take_append_eq_append_take]
    have hz : Q.length - A.length = 0 := by omega
    rw [hz]
    simp [List.take_prefix]
  · right
    have hA : A = Q.take A.length := by
      have h1 : A = (A ++ B).take A.length := by rw [List.take_left' rfl]
      rw [h1, ← ht, List.take_append_eq_append_take]
      have hz : A.length - Q.length = 0 := by omega
      rw [hz]
      simp
    refine ⟨Q.drop A.length, ?_, ?_, ?_⟩
    · conv_lhs => rw [← List.take_append_drop A.length Q]
      rw [← hA]
    · have hd : Q.drop A.length ++ t = B := by
        have h2 : (Q ++ t).drop A.length = B := by rw [ht, List.drop_left]
        rw [List.drop_append_eq_append_drop] at h2
        have hz : A.length - Q.length = 0 := by omega
        rw [hz] at h2
        simpa using h2
      exact ⟨t, hd⟩
    · simp
      omega

/-- Reading a varint out of a buffer that ends inside the encoding fails with
`UnexpectedEof` (every byte present carries the continuation bit, and the
shift never reaches 64 first because the value fits the remaining bits). -/
theorem varintLoop_eof (n : Nat) : ∀ result shift data pos Q,
    shift ≤ 63 → n < 2 ^ (64 - shift) → pos ≤ data.length →
    data.drop pos = Q → Q <+: writeVarint n → Q.length < (writeVarint n).length →
    ∃ b2, readVarintLoop ⟨data, pos⟩ result shift = .err .unexpectedEof b2 := by
  induction n using Nat.strong_induction_on with
  | _ n ih =>
    intro result shift data pos Q hshift hn hpos hrest hpre hlt
    have hs64 : ¬64 ≤ shift := by omega
    by_cases hbig : 128 ≤ n
    · have hwv : writeVarint n = (n % 256 ||| 128) :: writeVarint (n >>> 7) := by
        rw [writeVarint]
        simp [hbig]
      cases Q with
      | nil =>
        refine ⟨⟨data, pos⟩, ?_⟩
        rw [readVarintLoop]
        simp only [hs64, dite_false]
        rw [read_u8_eof data pos hrest]
      | cons q Qt =>
        rw [hwv] at hpre hlt
        obtain ⟨t, ht⟩ := hpre
        rw [List.cons_append] at ht
        have hq : q = (n % 256 ||| 128) := by
          have := List.head_eq_of_cons_eq ht
          exact this
        have hQt : Qt ++ t = writeVarint (n >>> 7) := List.tail_eq_of_cons_eq ht
        have hread := read_u8_ok data pos q Qt hrest
        have hsmall : (2 : Nat) ^ 7 ≤ n := by
          have h128 : (2 : Nat) ^ 7 = 128 := by norm_num
          omega
        have hsh56 : shift ≤ 56 := by
          have hlt2 : (2 : Nat) ^ 7 < 2 ^ (64 - shift) := lt_of_le_of_lt hsmall hn
          have := (Nat.pow_lt_pow_iff_right (by norm_num : 1 < 2)).mp hlt2
          omega
        have hn7 : n >>> 7 < 2 ^ (64 - (shift + 7)) := by
          rw [Nat.shiftRight_eq_div_pow]
          rw [Nat.div_lt_iff_lt_mul (by positivity)]
          have hmul : (2 : Nat) ^ (64 - (shift + 7)) * 2 ^ 7 = 2 ^ (64 - shift) := by
            rw [← pow_add]
            congr 1
            omega
          rw [hmul]
          exact hn
        have hlen1 := congrArg List.length hrest
        simp only [List.length_drop, List.length_cons] at hlen1
        have hrest2 : data.drop (pos + 1) = Qt := by
          have hdd : data.drop (pos + 1) = (data.drop pos).drop 1 := by
            rw [List.drop_drop]
          rw [hdd, hrest]
          rfl
        have hb1 : (n % 256 ||| 128) &&& 128 = 128 := byteOr128And128 _
        obtain ⟨b2, hb2⟩ := ih (n >>> 7)
          (by
            rw [Nat.shiftRight_eq_div_pow]
            exact Nat.div_lt_self (by omega) (by norm_num))
          (result ||| ((q &&& 127) <<< shift) % 2 ^ 64) (shift + 7) data (pos + 1) Qt
          (by omega) hn7 (by omega) hrest2 ⟨t, hQt⟩
          (by
            have := congrArg List.length hQt
            simp at this hlt
            omega)
        refine ⟨b2, ?_⟩
        rw [readVarintLoop]
        simp only [hs64, dite_false]
        rw [hread]
        rw [hq]
        simp only [hb1]
        norm_num
        rw [← hq]
        exact hb2
    · have hmod : n % 256 = n := Nat.mod_eq_of_lt (by omega)
      have hwv : writeVarint n = [n] := by
        rw [writeVarint]
        simp [hbig, hmod]
      rw [hwv] at hpre hlt
      have hQnil : Q = [] := by
        cases Q with
        | nil => rfl
        | cons q Qt =>
          simp at hlt
      subst hQnil
      refine ⟨⟨data, pos⟩, ?_⟩
      rw [readVarintLoop]
      simp only [hs64, dite_false]
      rw [read_u8_eof data pos hrest]

/-- Top-level corollary: a strict prefix of a varint encoding hits
end-of-input. -/
theorem read_varint_eof (n : Nat) (data : List Nat) (pos : Nat) (Q : List Nat)
    (hn : n < 2 ^ 64) (hpos : pos ≤ data.length) (hrest : data.drop pos = Q)
    (hpre : Q <+: writeVarint n) (hlt : Q.length < (writeVarint n).length) :
    ∃ b2, ReadBuffer.read_varint ⟨data, pos⟩ = .err .unexpectedEof b2 := by
  unfold ReadBuffer.read_varint
  exact varintLoop_eof n 0 0 data pos Q (by omega) (by simpa using hn) hpos hrest hpre hlt

/-- The loop of `read_varint` produces the `Varint too long` error exactly
when the next `k` bytes are all present and all carry the continuation bit,
where `k` counts the remaining iterations before the shift reaches 64. -/
theorem varintLoop_invalid : ∀ k : Nat, k ≤ 10 → ∀ (data : List Nat) (pos result : Nat),
    ((∃ b2, readVarintLoop ⟨data, pos⟩ result (7 * (10 - k)) =
        .err (.invalidFormat varintLongMsg) b2) ↔
      (k ≤ (data.drop pos).length ∧ ∀ i, i < k → (data.drop pos).getD i 0 &&& 128 ≠ 0)) := by
  intro k
  induction k with
  | zero =>
    intro _ data pos result
    constructor
    · intro _
      exact ⟨by omega, fun i hi => absurd hi (by omega)⟩
    · intro _
      refine ⟨⟨data, pos⟩, ?_⟩
      rw [readVarintLoop]
      simp
  | succ k ihk =>
    intro hk data pos result
    have hs64 : ¬64 ≤ 7 * (10 - (k + 1)) := by omega
    rw [readVarintLoop]
    simp only [hs64, dite_false]
    cases hrest : data.drop pos with
    | nil =>
      rw [read_u8_eof data pos hrest]
      simp
    | cons x xs =>
      rw [read_u8_ok data pos x xs hrest]
      have hxlen := congrArg List.length hrest
      simp only [List.length_drop, List.length_cons] at hxlen
      by_cases hx : x &&& 128 = 0
      · simp only [hx, if_true]
        constructor
        · intro ⟨b2, hb2⟩
          simp at hb2
        · intro ⟨_, hall⟩
          have h0 := hall 0 (by omega)
          simp [hx] at h0
      · simp only [hx, if_false]
        have hrest2 : data.drop (pos + 1) = xs := by
          have hdd : data.drop (pos + 1) = (data.drop pos).drop 1 := by
            rw [List.drop_drop]
          rw [hdd, hrest]
          rfl
        have hsh : 7 * (10 - (k + 1)) + 7 = 7 * (10 - k) := by omega
        rw [hsh]
        rw [ihk (by omega) data (pos + 1)
          (result ||| ((x &&& 127) <<< (7 * (10 - (k + 1)))) % 2 ^ 64)]
        rw [hrest2]
        constructor
        · intro ⟨hle, hall⟩
          refine ⟨by simp; omega, ?_⟩
          intro i hi
          match i with
          | 0 => simpa using hx
          | j + 1 =>
            have := hall j (by omega)
            simpa using this
        · intro ⟨hle, hall⟩
          simp at hle
          refine ⟨by omega, ?_⟩
          intro j hj
          have := hall (j + 1) (by omega)
          simpa using this

/-- `read_varint` fails with `InvalidFormat` iff the next ten bytes all exist
and all have the continuation bit set — independently of the payload value. -/
theorem read_varint_invalid_iff (data : List Nat) (pos : Nat) :
    (∃ b2, ReadBuffer.read_varint ⟨data, pos⟩ = .err (.invalidFormat varintLongMsg) b2) ↔
      (10 ≤ (data.drop pos).length ∧ ∀ i, i < 10 → (data.drop pos).getD i 0 &&& 128 ≠ 0) := by
  have key := varintLoop_invalid 10 (by omega) data pos 0
  simpa [ReadBuffer.read_varint] using key

/-! ### Decoding inverts encoding (for values without tuple variants) -/

theorem wfList_length (ss : List Shape) (vs : List Value) (h : wfList ss vs = true) :
    ss.length = vs.length := by
  induction ss generalizing vs with
  | nil =>
    cases vs with
    | nil => rfl
    | cons v vs2 => simp [wfList] at h
  | cons s ss2 ih =>
    cases vs with
    | nil => simp [wfList] at h
    | cons v vs2 =>
      simp [wfList] at h
      simp [ih vs2 h.2]

theorem isValidChar_lt (n : Nat) (h : isValidChar n = true) : n < 2 ^ (8 * 4) := by
  simp [isValidChar] at h
  have h32 : (2 : Nat) ^ (8 * 4) = 4294967296 := by norm_num
  omega

theorem read_u8_le_ok (data : List Nat) (pos n : Nat) (tail : List Nat) (hn : n < 2 ^ (8 * 1))
    (hrest : data.drop pos = leBytes 1 n ++ tail) :
    ReadBuffer.read_u8 ⟨data, pos⟩ = .ok n ⟨data, pos + 1⟩ := by
  have h256 : n < 256 := by
    have : (2 : Nat) ^ (8 * 1) = 256 := by norm_num
    omega
  have hmod : n % 256 = n := Nat.mod_eq_of_lt h256
  simp only [leBytes, hmod, List.cons_append, List.nil_append] at hrest
  exact read_u8_ok data pos n tail hrest

theorem wfPairs_cons (ks vs : Shape) (p : Value × Value) (ps : List (Value × Value)) :
    wfPairs ks vs (p :: ps) = (wfValue ks p.1 && wfValue vs p.2 && wfPairs ks vs ps) := by
  obtain ⟨k, v⟩ := p
  simp [wfPairs]

theorem noTVPairs_cons (p : Value × Value) (ps : List (Value × Value)) :
    noTVPairs (p :: ps) = (noTV p.1 && noTV p.2 && noTVPairs ps) := by
  obtain ⟨k, v⟩ := p
  simp [noTVPairs]

theorem encodePairs_cons (p : Value × Value) (ps : List (Value × Value)) :
    encodePairs (p :: ps) = encodeValue p.1 ++ encodeValue p.2 ++ encodePairs ps := by
  obtain ⟨k, v⟩ := p
  simp [encodePairs]

set_option maxHeartbeats 2000000 in
mutual

theorem decodeValue_enc (s : Shape) (v : Value) (hwf : wfValue s v = true)
    (hnt : noTV v = true) (data : List Nat) (pos : Nat) (tail : List Nat)
    (hpos : pos ≤ data.length) (hrest : data.drop pos = encodeValue v ++ tail) :
    decodeValue s ⟨data, pos⟩ = .ok v ⟨data, pos + (encodeValue v).length⟩ := by
  cases v with
  | vBool bv =>
    cases s <;> simp [wfValue] at hwf
    cases bv <;>
      simp only [encodeValue, List.cons_append, List.nil_append, if_true, if_false] at hrest ⊢ <;>
      simp only [decodeValue] <;>
      rw [read_u8_ok data pos _ tail (by simpa using hrest)] <;>
      simp
  | vUInt w2 n =>
    cases s with
    | sUInt w =>
      simp [wfValue] at hwf
      obtain ⟨rfl, hn⟩ := hwf
      cases w with
      | w8 =>
        simp only [encodeValue] at hrest ⊢
        simp only [decodeValue]
        rw [read_u8_le_ok data pos n tail (by simpa [Wd.bytes] using hn) hrest]
        simp [Wd.bytes, leBytes_length]
      | w16 =>
        simp only [encodeValue] at hrest ⊢
        simp only [decodeValue]
        rw [read_u16_ok data pos n tail hpos (by simpa [Wd.bytes] using hn)
          (by simpa [Wd.bytes] using hrest)]
        simp [Wd.bytes, leBytes_length]
      | w32 =>
        simp only [encodeValue] at hrest ⊢
        simp only [decodeValue]
        rw [read_u32_ok data pos n tail hpos (by simpa [Wd.bytes] using hn)
          (by simpa [Wd.bytes] using hrest)]
        simp [Wd.bytes, leBytes_length]
      | w64 =>
        simp only [encodeValue] at hrest ⊢
        simp only [decodeValue]
        rw [read_u64_ok data pos n tail hpos (by simpa [Wd.bytes] using hn)
          (by simpa [Wd.bytes] using hrest)]
        simp [Wd.bytes, leBytes_length]
    | sBool => simp [wfValue] at hwf
    | sInt w => simp [wfValue] at hwf
    | sF32 => simp [wfValue] at hwf
    | sF64 => simp [wfValue] at hwf
    | sChar => simp [wfValue] at hwf
    | sStr => simp [wfValue] at hwf
    | sBytes => simp [wfValue] at hwf
    | sOption s2 => simp [wfValue] at hwf
    | sUnit => simp [wfValue] at hwf
    | sTuple ss => simp [wfValue] at hwf
    | sStruct ss => simp [wfValue] at hwf
    | sSeq s2 => simp [wfValue] at hwf
    | sMap ks vs => simp [wfValue] at hwf
    | sEnum vars => simp [wfValue] at hwf
  | vInt w2 i =>
    cases s with
    | sInt w =>
      simp [wfValue] at hwf
      obtain ⟨⟨rfl, h1⟩, h2⟩ := hwf
      have hb := toTwos_lt i w.bytes
      have hsg := toSigned_toTwos w i h1 h2
      cases w with
      | w8 =>
        simp only [encodeValue] at hrest ⊢
        simp only [decodeValue]
        rw [read_u8_le_ok data pos (toTwos i 1) tail
          (by simpa [Wd.bytes] using hb) (by simpa [Wd.bytes] using hrest)]
        simp only [Wd.bytes] at hsg ⊢
        simp [hsg, leBytes_length]
      | w16 =>
        simp only [encodeValue] at hrest ⊢
        simp only [decodeValue]
        rw [read_u16_ok data pos (toTwos i 2) tail hpos
          (by simpa [Wd.bytes] using hb) (by simpa [Wd.bytes] using hrest)]
        simp only [Wd.bytes] at hsg ⊢
        simp [hsg, leBytes_length]
      | w32 =>
        simp only [encodeValue] at hrest ⊢
        simp only [decodeValue]
        rw [read_u32_ok data pos (toTwos i 4) tail hpos
          (by simpa [Wd.bytes] using hb) (by simpa [Wd.bytes] using hrest)]
        simp only [Wd.bytes] at hsg ⊢
        simp [hsg, leBytes_length]
      | w64 =>
        simp only [encodeValue] at hrest ⊢
        simp only [decodeValue]
        rw [read_u64_ok data pos (toTwos i 8) tail hpos
          (by simpa [Wd.bytes] using hb) (by simpa [Wd.bytes] using hrest)]
        simp only [Wd.bytes] at hsg ⊢
        simp [hsg, leBytes_length]
    | sBool => simp [wfValue] at hwf
    | sUInt w => simp [wfValue] at hwf
    | sF32 => simp [wfValue] at hwf
    | sF64 => simp [wfValue] at hwf
    | sChar => simp [wfValue] at hwf
    | sStr => simp [wfValue] at hwf
    | sBytes => simp [wfValue] at hwf
    | sOption s2 => simp [wfValue] at hwf
    | sUnit => simp [wfValue] at hwf
    | sTuple ss => simp [wfValue] at hwf
    | sStruct ss => simp [wfValue] at hwf
    | sSeq s2 => simp [wfValue] at hwf
    | sMap ks vs => simp [wfValue] at hwf
    | sEnum vars => simp [wfValue] at hwf
  | vF32 bits =>
    cases s <;> simp [wfValue] at hwf
    simp only [encodeValue] at hrest ⊢
    simp only [decodeValue]
    rw [read_u32_ok data pos bits tail hpos (by simpa using hwf) hrest]
    simp [leBytes_length]
  | vF64 bits =>
    cases s <;> simp [wfValue] at hwf
    simp only [encodeValue] at hrest ⊢
    simp only [decodeValue]
    rw [read_u64_ok data pos bits tail hpos (by simpa using hwf) hrest]
    simp [leBytes_length]
  | vChar n =>
    cases s <;> simp [wfValue] at hwf
    have hn4 := isValidChar_lt n hwf
    simp only [encodeValue] at hrest ⊢
    simp only [decodeValue]
    rw [read_u32_ok data pos n tail hpos hn4 hrest]
    simp [hwf, leBytes_length]
  | vStr bs =>
    cases s <;> simp [wfValue] at hwf
    obtain ⟨hutf, hlen⟩ := hwf
    simp only [encodeValue] at hrest ⊢
    rw [List.append_assoc] at hrest
    have hv := read_varint_ok bs.length data pos (bs ++ tail) hlen hpos hrest
    have hb := rest_bound data pos (writeVarint bs.length) (bs ++ tail) hpos hrest
    have hbytes := read_bytes_ok data (pos + (writeVarint bs.length).length) bs.length bs
      tail hb.1 rfl hb.2
    simp only [decodeValue, ReadBuffer.read_str, ReadBuffer.read_byte_slice]
    rw [hv]
    simp [hbytes, hutf, List.length_append]
    try omega
  | vBytes bs =>
    cases s <;> simp [wfValue] at hwf
    obtain ⟨hbyte, hlen⟩ := hwf
    simp only [encodeValue] at hrest ⊢
    rw [List.append_assoc] at hrest
    have hv := read_varint_ok bs.length data pos (bs ++ tail) hlen hpos hrest
    have hb := rest_bound data pos (writeVarint bs.length) (bs ++ tail) hpos hrest
    have hbytes := read_bytes_ok data (pos + (writeVarint bs.length).length) bs.length bs
      tail hb.1 rfl hb.2
    simp only [decodeValue, ReadBuffer.read_byte_slice]
    rw [hv]
    simp [hbytes, List.length_append]
    try omega
  | vNone =>
    cases s <;> simp [wfValue] at hwf
    simp only [encodeValue, List.cons_append, List.nil_append] at hrest ⊢
    simp only [decodeValue]
    rw [read_u8_ok data pos 0 tail hrest]
    simp
  | vSome v =>
    cases s with
    | sOption s2 =>
      simp only [wfValue] at hwf
      simp only [noTV] at hnt
      simp only [encodeValue, List.cons_append] at hrest ⊢
      simp only [decodeValue]
      rw [read_u8_ok data pos 1 (encodeValue v ++ tail) hrest]
      have hlen1 := congrArg List.length hrest
      simp only [List.length_drop, List.length_cons] at hlen1
      have hrest2 : data.drop (pos + 1) = encodeValue v ++ tail := by
        have hdd : data.drop (pos + 1) = (data.drop pos).drop 1 := by
          rw [List.drop_drop]
        rw [hdd, hrest]
        rfl
      have hrec := decodeValue_enc s2 v hwf hnt data (pos + 1) tail (by omega) hrest2
      simp [hrec, List.length_cons]
      try omega
    | sBool => simp [wfValue] at hwf
    | sUInt w => simp [wfValue] at hwf
    | sInt w => simp [wfValue] at hwf
    | sF32 => simp [wfValue] at hwf
    | sF64 => simp [wfValue] at hwf
    | sChar => simp [wfValue] at hwf
    | sStr => simp [wfValue] at hwf
    | sBytes => simp [wfValue] at hwf
    | sUnit => simp [wfValue] at hwf
    | sTuple ss => simp [wfValue] at hwf
    | sStruct ss => simp [wfValue] at hwf
    | sSeq s2 => simp [wfValue] at hwf
    | sMap ks vs => simp [wfValue] at hwf
    | sEnum vars => simp [wfValue] at hwf
  | vUnit =>
    cases s <;> simp [wfValue] at hwf
    simp only [decodeValue, encodeValue]
    simp
  | vTuple vs =>
    cases s with
    | sTuple ss =>
      simp [wfValue] at hwf
      obtain ⟨hlen, hlist⟩ := hwf
      simp only [noTV] at hnt
      simp only [encodeValue] at hrest ⊢
      rw [List.append_assoc] at hrest
      have hv := read_varint_ok vs.length data pos (encodeList vs ++ tail) hlen hpos hrest
      have hb := rest_bound data pos (writeVarint vs.length) (encodeList vs ++ tail) hpos hrest
      have hrec := decodeShapes_enc ss vs hlist hnt data
        (pos + (writeVarint vs.length).length) tail hb.1 hb.2
      have hne : ¬(vs.length ≠ ss.length) := by simp [wfList_length ss vs hlist]
      simp only [decodeValue]
      rw [hv]
      simp [hne, hrec, List.length_append]
      try omega
    | sBool => simp [wfValue] at hwf
    | sUInt w => simp [wfValue] at hwf
    | sInt w => simp [wfValue] at hwf
    | sF32 => simp [wfValue] at hwf
    | sF64 => simp [wfValue] at hwf
    | sChar => simp [wfValue] at hwf
    | sStr => simp [wfValue] at hwf
    | sBytes => simp [wfValue] at hwf
    | sOption s2 => simp [wfValue] at hwf
    | sUnit => simp [wfValue] at hwf
    | sStruct ss => simp [wfValue] at hwf
    | sSeq s2 => simp [wfValue] at hwf
    | sMap ks vs2 => simp [wfValue] at hwf
    | sEnum vars => simp [wfValue] at hwf
  | vStruct vs =>
    cases s with
    | sStruct ss =>
      simp [wfValue] at hwf
      obtain ⟨hlen, hlist⟩ := hwf
      simp only [noTV] at hnt
      simp only [encodeValue] at hrest ⊢
      rw [List.append_assoc] at hrest
      have hv := read_varint_ok vs.length data pos (encodeList vs ++ tail) hlen hpos hrest
      have hb := rest_bound data pos (writeVarint vs.length) (encodeList vs ++ tail) hpos hrest
      have hrec := decodeShapes_enc ss vs hlist hnt data
        (pos + (writeVarint vs.length).length) tail hb.1 hb.2
      have hne : ¬(vs.length ≠ ss.length) := by simp [wfList_length ss vs hlist]
      simp only [decodeValue]
      rw [hv]
      simp [hne, hrec, List.length_append]
      try omega
    | sBool => simp [wfValue] at hwf
    | sUInt w => simp [wfValue] at hwf
    | sInt w => simp [wfValue] at hwf
    | sF32 => simp [wfValue] at hwf
    | sF64 => simp [wfValue] at hwf
    | sChar => simp [wfValue] at hwf
    | sStr => simp [wfValue] at hwf
    | sBytes => simp [wfValue] at hwf
    | sOption s2 => simp [wfValue] at hwf
    | sUnit => simp [wfValue] at hwf
    | sTuple ss => simp [wfValue] at hwf
    | sSeq s2 => simp [wfValue] at hwf
    | sMap ks vs2 => simp [wfValue] at hwf
    | sEnum vars => simp [wfValue] at hwf
  | vSeq vs =>
    cases s with
    | sSeq s2 =>
      simp [wfValue] at hwf
      obtain ⟨hlen, hseq⟩ := hwf
      simp only [noTV] at hnt
      simp only [encodeValue] at hrest ⊢
      rw [List.append_assoc] at hrest
      have hv := read_varint_ok vs.length data pos (encodeList vs ++ tail) hlen hpos hrest
      have hb := rest_bound data pos (writeVarint vs.length) (encodeList vs ++ tail) hpos hrest
      have hrec := decodeSeq_enc s2 vs hseq hnt data
        (pos + (writeVarint vs.length).length) tail hb.1 hb.2
      simp only [decodeValue]
      rw [hv]
      simp [hrec, List.length_append]
      try omega
    | sBool => simp [wfValue] at hwf
    | sUInt w => simp [wfValue] at hwf
    | sInt w => simp [wfValue] at hwf
    | sF32 => simp [wfValue] at hwf
    | sF64 => simp [wfValue] at hwf
    | sChar => simp [wfValue] at hwf
    | sStr => simp [wfValue] at hwf
    | sBytes => simp [wfValue] at hwf
    | sOption s2 => simp [wfValue] at hwf
    | sUnit => simp [wfValue] at hwf
    | sTuple ss => simp [wfValue] at hwf
    | sStruct ss => simp [wfValue] at hwf
    | sMap ks vs2 => simp [wfValue] at hwf
    | sEnum vars => simp [wfValue] at hwf
  | vMap ps =>
    cases s with
    | sMap ks vs2 =>
      simp [wfValue] at hwf
      obtain ⟨hlen, hpairs⟩ := hwf
      simp only [noTV] at hnt
      simp only [encodeValue] at hrest ⊢
      rw [List.append_assoc] at hrest
      have hv := read_varint_ok ps.length data pos (encodePairs ps ++ tail) hlen hpos hrest
      have hb := rest_bound data pos (writeVarint ps.length) (encodePairs ps ++ tail) hpos hrest
      have hrec := decodeMap_enc ks vs2 ps hpairs hnt data
        (pos + (writeVarint ps.length).length) tail hb.1 hb.2
      simp only [decodeValue]
      rw [hv]
      simp [hrec, List.length_append]
      try omega
    | sBool => simp [wfValue] at hwf
    | sUInt w => simp [wfValue] at hwf
    | sInt w => simp [wfValue] at hwf
    | sF32 => simp [wfValue] at hwf
    | sF64 => simp [wfValue] at hwf
    | sChar => simp [wfValue] at hwf
    | sStr => simp [wfValue] at hwf
    | sBytes => simp [wfValue] at hwf
    | sOption s2 => simp [wfValue] at hwf
    | sUnit => simp [wfValue] at hwf
    | sTuple ss => simp [wfValue] at hwf
    | sStruct ss => simp [wfValue] at hwf
    | sSeq s2 => simp [wfValue] at hwf
    | sEnum vars => simp [wfValue] at hwf
  | vVariant idx p =>
    cases s with
    | sEnum vars =>
      simp only [wfValue, Bool.and_eq_true, decide_eq_true_eq] at hwf
      obtain ⟨hidx, hmatch⟩ := hwf
      cases hv : vars[idx]? with
      | none =>
        rw [hv] at hmatch
        have hfalse : false = true := hmatch
        simp at hfalse
      | some vsh =>
        rw [hv] at hmatch
        have hpay : wfPayload vsh p = true := hmatch
        clear hmatch
        have hlt : idx < vars.length := by
          by_contra hge
          rw [List.getElem?_eq_none (by omega)] at hv
          simp at hv
        have hget : vars[idx] = vsh := by
          rw [List.getElem?_eq_getElem hlt] at hv
          simpa using hv
        have hidx64 : idx < 2 ^ 64 := by
          have h3264 : (2 : Nat) ^ 32 < 2 ^ 64 := by norm_num
          omega
        simp only [encodeValue] at hrest ⊢
        rw [List.append_assoc] at hrest
        have hvarint := read_varint_ok idx data pos (encodePayload p ++ tail) hidx64 hpos hrest
        have hb := rest_bound data pos (writeVarint idx) (encodePayload p ++ tail) hpos hrest
        have hstep : decodeValue (Shape.sEnum vars) ⟨data, pos⟩ =
            decodeVariant vsh idx ⟨data, pos + (writeVarint idx).length⟩ := by
          simp only [decodeValue]
          rw [hvarint]
          simp [hlt, hget]
        rw [hstep]
        cases p with
        | unit =>
          cases vsh <;> simp [wfPayload] at hpay
          simp only [decodeVariant, encodePayload]
          simp
        | newtype v =>
          cases vsh with
          | newtype s2 =>
            simp only [wfPayload] at hpay
            simp only [noTV] at hnt
            simp only [decodeVariant, encodePayload]
            have hrec := decodeValue_enc s2 v hpay hnt data
              (pos + (writeVarint idx).length) tail hb.1
              (by simpa [encodePayload] using hb.2)
            simp [hrec, encodePayload, List.length_append]
            try omega
          | unit => simp [wfPayload] at hpay
          | tuple ss2 => simp [wfPayload] at hpay
          | struct ss2 => simp [wfPayload] at hpay
        | tuple vs3 =>
          simp [noTV] at hnt
        | struct vs3 =>
          cases vsh with
          | struct ss2 =>
            simp [wfPayload] at hpay
            obtain ⟨hlen3, hlist3⟩ := hpay
            simp only [noTV] at hnt
            simp only [decodeVariant, encodePayload]
            have hrest3 : data.drop (pos + (writeVarint idx).length) =
                writeVarint vs3.length ++ (encodeList vs3 ++ tail) := by
              have := hb.2
              simpa [encodePayload, List.append_assoc] using this
            have hv2 := read_varint_ok vs3.length data (pos + (writeVarint idx).length)
              (encodeList vs3 ++ tail) hlen3 hb.1 hrest3
            have hb2 := rest_bound data (pos + (writeVarint idx).length)
              (writeVarint vs3.length) (encodeList vs3 ++ tail) hb.1 hrest3
            have hrec := decodeShapes_enc ss2 vs3 hlist3 hnt data
              (pos + (writeVarint idx).length + (writeVarint vs3.length).length) tail
              hb2.1 hb2.2
            have hne : ¬(vs3.length ≠ ss2.length) := by
              simp [wfList_length ss2 vs3 hlist3]
            rw [hv2]
            simp [hne, hrec, encodePayload, List.length_append]
            try omega
          | unit => simp [wfPayload] at hpay
          | newtype s2 => simp [wfPayload] at hpay
          | tuple ss2 => simp [wfPayload] at hpay
    | sBool => simp [wfValue] at hwf
    | sUInt w => simp [wfValue] at hwf
    | sInt w => simp [wfValue] at hwf
    | sF32 => simp [wfValue] at hwf
    | sF64 => simp [wfValue] at hwf
    | sChar => simp [wfValue] at hwf
    | sStr => simp [wfValue] at hwf
    | sBytes => simp [wfValue] at hwf
    | sOption s2 => simp [wfValue] at hwf
    | sUnit => simp [wfValue] at hwf
    | sTuple ss => simp [wfValue] at hwf
    | sStruct ss => simp [wfValue] at hwf
    | sSeq s2 => simp [wfValue] at hwf
    | sMap ks vs2 => simp [wfValue] at hwf
termination_by sizeOf v
decreasing_by
  all_goals subst_vars
  all_goals simp_arith
  all_goals omega

theorem decodeShapes_enc (ss : List Shape) (vs : List Value) (hwf : wfList ss vs = true)
    (hnt : noTVList vs = true) (data : List Nat) (pos : Nat) (tail : List Nat)
    (hpos : pos ≤ data.length) (hrest : data.drop pos = encodeList vs ++ tail) :
    decodeShapes ss ⟨data, pos⟩ = .ok vs ⟨data, pos + (encodeList vs).length⟩ := by
  cases ss with
  | nil =>
    cases vs with
    | nil =>
      simp only [decodeShapes, encodeList]
      simp
    | cons v vs2 => simp [wfList] at hwf
  | cons s ss2 =>
    cases vs with
    | nil => simp [wfList] at hwf
    | cons v vs2 =>
      simp [wfList] at hwf
      obtain ⟨h1, h2⟩ := hwf
      simp [noTVList] at hnt
      obtain ⟨hn1, hn2⟩ := hnt
      simp only [encodeList] at hrest ⊢
      rw [List.append_assoc] at hrest
      have hv := decodeValue_enc s v h1 hn1 data pos (encodeList vs2 ++ tail) hpos hrest
      have hb := rest_bound data pos (encodeValue v) (encodeList vs2 ++ tail) hpos hrest
      have hrec := decodeShapes_enc ss2 vs2 h2 hn2 data
        (pos + (encodeValue v).length) tail hb.1 hb.2
      simp only [decodeShapes]
      rw [hv]
      simp [hrec, List.length_append]
      try omega
termination_by sizeOf vs
decreasing_by
  all_goals subst_vars
  all_goals simp_arith
  all_goals omega

theorem decodeSeq_enc (s : Shape) (vs : List Value) (hwf : wfSeq s vs = true)
    (hnt : noTVList vs = true) (data : List Nat) (pos : Nat) (tail : List Nat)
    (hpos : pos ≤ data.length) (hrest : data.drop pos = encodeList vs ++ tail) :
    decodeSeq s vs.length ⟨data, pos⟩ = .ok vs ⟨data, pos + (encodeList vs).length⟩ := by
  cases vs with
  | nil =>
    simp only [List.length_nil, decodeSeq, encodeList]
    simp
  | cons v vs2 =>
    simp [wfSeq] at hwf
    obtain ⟨h1, h2⟩ := hwf
    simp [noTVList] at hnt
    obtain ⟨hn1, hn2⟩ := hnt
    simp only [encodeList] at hrest ⊢
    rw [List.append_assoc] at hrest
    have hv := decodeValue_enc s v h1 hn1 data pos (encodeList vs2 ++ tail) hpos hrest
    have hb := rest_bound data pos (encodeValue v) (encodeList vs2 ++ tail) hpos hrest
    have hrec := decodeSeq_enc s vs2 h2 hn2 data (pos + (encodeValue v).length) tail hb.1 hb.2
    simp only [List.length_cons, decodeSeq]
    rw [hv]
    simp [hrec, List.length_append]
    try omega
termination_by sizeOf vs
decreasing_by
  all_goals subst_vars
  all_goals simp_arith
  all_goals omega

theorem decodeMap_enc (ks vs : Shape) (ps : List (Value × Value)) (hwf : wfPairs ks vs ps = true)
    (hnt : noTVPairs ps = true) (data : List Nat) (pos : Nat) (tail : List Nat)
    (hpos : pos ≤ data.length) (hrest : data.drop pos = encodePairs ps ++ tail) :
    decodeMap ks vs ps.length ⟨data, pos⟩ = .ok ps ⟨data, pos + (encodePairs ps).length⟩ := by
  cases ps with
  | nil =>
    simp only [List.length_nil, decodeMap, encodePairs]
    simp
  | cons p ps2 =>
    rw [wfPairs_cons] at hwf
    simp only [Bool.and_eq_true] at hwf
    obtain ⟨⟨h1, h2⟩, h3⟩ := hwf
    rw [noTVPairs_cons] at hnt
    simp only [Bool.and_eq_true] at hnt
    obtain ⟨⟨hn1, hn2⟩, hn3⟩ := hnt
    rw [encodePairs_cons] at hrest
    rw [List.append_assoc, List.append_assoc] at hrest
    have hk := decodeValue_enc ks p.1 h1 hn1 data pos
      (encodeValue p.2 ++ (encodePairs ps2 ++ tail)) hpos hrest
    have hb := rest_bound data pos (encodeValue p.1)
      (encodeValue p.2 ++ (encodePairs ps2 ++ tail)) hpos hrest
    have hv := decodeValue_enc vs p.2 h2 hn2 data (pos + (encodeValue p.1).length)
      (encodePairs ps2 ++ tail) hb.1 hb.2
    have hb2 := rest_bound data (pos + (encodeValue p.1).length) (encodeValue p.2)
      (encodePairs ps2 ++ tail) hb.1 hb.2
    have hrec := decodeMap_enc ks vs ps2 h3 hn3 data
      (pos + (encodeValue p.1).length + (encodeValue p.2).length) tail hb2.1 hb2.2
    simp only [List.length_cons, decodeMap]
    rw [hk]
    simp [hv, hrec, encodePairs_cons, List.length_append]
    try omega
termination_by sizeOf ps
decreasing_by
  all_goals subst_vars
  all_goals try (cases p)
  all_goals simp_arith
  all_goals omega

end

/-! ### Truncated input fails with `UnexpectedEof` -/

theorem rest_len (data : List Nat) (pos : Nat) (Q : List Nat) (h : data.drop pos = Q) :
    data.length - pos = Q.length := by
  have hc := congrArg List.length h
  simpa [List.length_drop] using hc

theorem read_u16_eof (data : List Nat) (pos : Nat) (h : data.length - pos < 2) :
    ReadBuffer.read_u16 ⟨data, pos⟩ = .err .unexpectedEof ⟨data, pos⟩ := by
  unfold ReadBuffer.read_u16
  rw [read_bytes_eof data pos 2 h]

theorem read_u32_eof (data : List Nat) (pos : Nat) (h : data.length - pos < 4) :
    ReadBuffer.read_u32 ⟨data, pos⟩ = .err .unexpectedEof ⟨data, pos⟩ := by
  unfold ReadBuffer.read_u32
  rw [read_bytes_eof data pos 4 h]

theorem read_u64_eof (data : List Nat) (pos : Nat) (h : data.length - pos < 8) :
    ReadBuffer.read_u64 ⟨data, pos⟩ = .err .unexpectedEof ⟨data, pos⟩ := by
  unfold ReadBuffer.read_u64
  rw [read_bytes_eof data pos 8 h]

set_option maxHeartbeats 2000000 in
mutual

theorem decodeValue_eofP (s : Shape) (v : Value) (hwf : wfValue s v = true)
    (hnt : noTV v = true) (data : List Nat) (pos : Nat) (Q : List Nat)
    (hpos : pos ≤ data.length) (hrest : data.drop pos = Q)
    (hpre : Q <+: encodeValue v) (hlt : Q.length < (encodeValue v).length) :
    ∃ b2, decodeValue s ⟨data, pos⟩ = .err .unexpectedEof b2 := by
  have hQlen := rest_len data pos Q hrest
  cases v with
  | vBool bv =>
    cases s <;> simp [wfValue] at hwf
    have hQ : Q = [] := by
      rw [← List.length_eq_zero]
      simp only [encodeValue, List.length_cons, List.length_nil] at hlt
      omega
    subst hQ
    refine ⟨⟨data, pos⟩, ?_⟩
    simp only [decodeValue]
    rw [read_u8_eof data pos hrest]
  | vUInt w2 n =>
    cases s with
    | sUInt w =>
      simp [wfValue] at hwf
      obtain ⟨rfl, hn⟩ := hwf
      cases w with
      | w8 =>
        have hQ : Q = [] := by
          rw [← List.length_eq_zero]
          simp only [encodeValue, leBytes_length, Wd.bytes] at hlt
          omega
        subst hQ
        refine ⟨⟨data, pos⟩, ?_⟩
        simp only [decodeValue]
        rw [read_u8_eof data pos hrest]
      | w16 =>
        refine ⟨⟨data, pos⟩, ?_⟩
        simp only [decodeValue]
        rw [read_u16_eof data pos (by
          simp [encodeValue, leBytes_length, Wd.bytes] at hlt
          omega)]
      | w32 =>
        refine ⟨⟨data, pos⟩, ?_⟩
        simp only [decodeValue]
        rw [read_u32_eof data pos (by
          simp [encodeValue, leBytes_length, Wd.bytes] at hlt
          omega)]
      | w64 =>
        refine ⟨⟨data, pos⟩, ?_⟩
        simp only [decodeValue]
        rw [read_u64_eof data pos (by
          simp [encodeValue, leBytes_length, Wd.bytes] at hlt
          omega)]
    | sBool => simp [wfValue] at hwf
    | sInt w => simp [wfValue] at hwf
    | sF32 => simp [wfValue] at hwf
    | sF64 => simp [wfValue] at hwf
    | sChar => simp [wfValue] at hwf
    | sStr => simp [wfValue] at hwf
    | sBytes => simp [wfValue] at hwf
    | sOption s2 => simp [wfValue] at hwf
    | sUnit => simp [wfValue] at hwf
    | sTuple ss => simp [wfValue] at hwf
    | sStruct ss => simp [wfValue] at hwf
    | sSeq s2 => simp [wfValue] at hwf
    | sMap ks vs => simp [wfValue] at hwf
    | sEnum vars => simp [wfValue] at hwf
  | vInt w2 i =>
    cases s with
    | sInt w =>
      simp [wfValue] at hwf
      obtain ⟨⟨rfl, h1⟩, h2⟩ := hwf
      cases w with
      | w8 =>
        have hQ : Q = [] := by
          rw [← List.length_eq_zero]
          simp only [encodeValue, leBytes_length, Wd.bytes] at hlt
          omega
        subst hQ
        refine ⟨⟨data, pos⟩, ?_⟩
        simp only [decodeValue]
        rw [read_u8_eof data pos hrest]
      | w16 =>
        refine ⟨⟨data, pos⟩, ?_⟩
        simp only [decodeValue]
        rw [read_u16_eof data pos (by
          simp [encodeValue, leBytes_length, Wd.bytes] at hlt
          omega)]
      | w32 =>
        refine ⟨⟨data, pos⟩, ?_⟩
        simp only [decodeValue]
        rw [read_u32_eof data pos (by
          simp [encodeValue, leBytes_length, Wd.bytes] at hlt
          omega)]
      | w64 =>
        refine ⟨⟨data, pos⟩, ?_⟩
        simp only [decodeValue]
        rw [read_u64_eof data pos (by
          simp [encodeValue, leBytes_length, Wd.bytes] at hlt
          omega)]
    | sBool => simp [wfValue] at hwf
    | sUInt w => simp [wfValue] at hwf
    | sF32 => simp [wfValue] at hwf
    | sF64 => simp [wfValue] at hwf
    | sChar => simp [wfValue] at hwf
    | sStr => simp [wfValue] at hwf
    | sBytes => simp [wfValue] at hwf
    | sOption s2 => simp [wfValue] at hwf
    | sUnit => simp [wfValue] at hwf
    | sTuple ss => simp [wfValue] at hwf
    | sStruct ss => simp [wfValue] at hwf
    | sSeq s2 => simp [wfValue] at hwf
    | sMap ks vs => simp [wfValue] at hwf
    | sEnum vars => simp [wfValue] at hwf
  | vF32 bits =>
    cases s <;> simp [wfValue] at hwf
    refine ⟨⟨data, pos⟩, ?_⟩
    simp only [decodeValue]
    rw [read_u32_eof data pos (by
      simp [encodeValue, leBytes_length] at hlt
      omega)]
  | vF64 bits =>
    cases s <;> simp [wfValue] at hwf
    refine ⟨⟨data, pos⟩, ?_⟩
    simp only [decodeValue]
    rw [read_u64_eof data pos (by
      simp [encodeValue, leBytes_length] at hlt
      omega)]
  | vChar n =>
    cases s <;> simp [wfValue] at hwf
    refine ⟨⟨data, pos⟩, ?_⟩
    simp only [decodeValue]
    rw [read_u32_eof data pos (by
      simp [encodeValue, leBytes_length] at hlt
      omega)]
  | vStr bs =>
    cases s <;> simp [wfValue] at hwf
    obtain ⟨hutf, hlen⟩ := hwf
    simp only [encodeValue] at hpre hlt
    rcases prefixCases hpre with ⟨hql, hqp⟩ | ⟨Q2, rfl, hq2, hq2len⟩
    · obtain ⟨b2, hb2⟩ := read_varint_eof bs.length data pos Q hlen hpos hrest hqp hql
      refine ⟨b2, ?_⟩
      simp only [decodeValue, ReadBuffer.read_str, ReadBuffer.read_byte_slice]
      rw [hb2]
    · have hv := read_varint_ok bs.length data pos Q2 hlen hpos (by rw [hrest])
      have hb := rest_bound data pos (writeVarint bs.length) Q2 hpos (by rw [hrest])
      refine ⟨⟨data, pos + (writeVarint bs.length).length⟩, ?_⟩
      simp only [decodeValue, ReadBuffer.read_str, ReadBuffer.read_byte_slice]
      rw [hv]
      have heof := read_bytes_eof data (pos + (writeVarint bs.length).length) bs.length (by
        have := rest_len data (pos + (writeVarint bs.length).length) Q2 hb.2
        have hq2l := hq2.length_le
        simp [List.length_append] at hlt
        omega)
      simp [heof]
  | vBytes bs =>
    cases s <;> simp [wfValue] at hwf
    obtain ⟨hbyte, hlen⟩ := hwf
    simp only [encodeValue] at hpre hlt
    rcases prefixCases hpre with ⟨hql, hqp⟩ | ⟨Q2, rfl, hq2, hq2len⟩
    · obtain ⟨b2, hb2⟩ := read_varint_eof bs.length data pos Q hlen hpos hrest hqp hql
      refine ⟨b2, ?_⟩
      simp only [decodeValue, ReadBuffer.read_byte_slice]
      rw [hb2]
    · have hv := read_varint_ok bs.length data pos Q2 hlen hpos (by rw [hrest])
      have hb := rest_bound data pos (writeVarint bs.length) Q2 hpos (by rw [hrest])
      refine ⟨⟨data, pos + (writeVarint bs.length).length⟩, ?_⟩
      simp only [decodeValue, ReadBuffer.read_byte_slice]
      rw [hv]
      have heof := read_bytes_eof data (pos + (writeVarint bs.length).length) bs.length (by
        have := rest_len data (pos + (writeVarint bs.length).length) Q2 hb.2
        have hq2l := hq2.length_le
        simp [List.length_append] at hlt
        omega)
      simp [heof]
  | vNone =>
    cases s <;> simp [wfValue] at hwf
    have hQ : Q = [] := by
      rw [← List.length_eq_zero]
      simp only [encodeValue, List.length_cons, List.length_nil] at hlt
      omega
    subst hQ
    refine ⟨⟨data, pos⟩, ?_⟩
    simp only [decodeValue]
    rw [read_u8_eof data pos hrest]
  | vSome v =>
    cases s with
    | sOption s2 =>
      simp only [wfValue] at hwf
      simp only [noTV] at hnt
      simp only [encodeValue] at hpre hlt
      cases Q with
      | nil =>
        refine ⟨⟨data, pos⟩, ?_⟩
        simp only [decodeValue]
        rw [read_u8_eof data pos hrest]
      | cons q Qt =>
        obtain ⟨t, ht⟩ := hpre
        rw [List.cons_append] at ht
        have hq1 : q = 1 := List.head_eq_of_cons_eq ht
        have hQt : Qt ++ t = encodeValue v := List.tail_eq_of_cons_eq ht
        subst hq1
        have hread := read_u8_ok data pos 1 Qt hrest
        have hrest2 : data.drop (pos + 1) = Qt := by
          have hdd : data.drop (pos + 1) = (data.drop pos).drop 1 := by
            rw [List.drop_drop]
          rw [hdd, hrest]
          rfl
        have hQl2 : data.length - pos = Qt.length + 1 := by simpa using hQlen
        obtain ⟨b3, hb3⟩ := decodeValue_eofP s2 v hwf hnt data (pos + 1) Qt
          (by omega) hrest2 ⟨t, hQt⟩
          (by
            simp only [List.length_cons] at hlt
            omega)
        refine ⟨b3, ?_⟩
        simp only [decodeValue]
        rw [hread]
        simp [hb3]
    | sBool => simp [wfValue] at hwf
    | sUInt w => simp [wfValue] at hwf
    | sInt w => simp [wfValue] at hwf
    | sF32 => simp [wfValue] at hwf
    | sF64 => simp [wfValue] at hwf
    | sChar => simp [wfValue] at hwf
    | sStr => simp [wfValue] at hwf
    | sBytes => simp [wfValue] at hwf
    | sUnit => simp [wfValue] at hwf
    | sTuple ss => simp [wfValue] at hwf
    | sStruct ss => simp [wfValue] at hwf
    | sSeq s2 => simp [wfValue] at hwf
    | sMap ks vs => simp [wfValue] at hwf
    | sEnum vars => simp [wfValue] at hwf
  | vUnit =>
    cases s <;> simp [wfValue] at hwf
    simp [encodeValue] at hlt
  | vTuple vs =>
    cases s with
    | sTuple ss =>
      simp [wfValue] at hwf
      obtain ⟨hlen, hlist⟩ := hwf
      simp only [noTV] at hnt
      simp only [encodeValue] at hpre hlt
      rcases prefixCases hpre with ⟨hql, hqp⟩ | ⟨Q2, rfl, hq2, hq2len⟩
      · obtain ⟨b2, hb2⟩ := read_varint_eof vs.length data pos Q hlen hpos hrest hqp hql
        refine ⟨b2, ?_⟩
        simp only [decodeValue]
        rw [hb2]
      · have hv := read_varint_ok vs.length data pos Q2 hlen hpos (by rw [hrest])
        have hb := rest_bound data pos (writeVarint vs.length) Q2 hpos (by rw [hrest])
        have hne : ¬(vs.length ≠ ss.length) := by simp [wfList_length ss vs hlist]
        obtain ⟨b3, hb3⟩ := decodeShapes_eofP ss vs hlist hnt data
          (pos + (writeVarint vs.length).length) Q2 hb.1 hb.2 hq2
          (by
            simp [List.length_append] at hlt
            omega)
        refine ⟨b3, ?_⟩
        simp only [decodeValue]
        rw [hv]
        simp [hne, hb3]
    | sBool => simp [wfValue] at hwf
    | sUInt w => simp [wfValue] at hwf
    | sInt w => simp [wfValue] at hwf
    | sF32 => simp [wfValue] at hwf
    | sF64 => simp [wfValue] at hwf
    | sChar => simp [wfValue] at hwf
    | sStr => simp [wfValue] at hwf
    | sBytes => simp [wfValue] at hwf
    | sOption s2 => simp [wfValue] at hwf
    | sUnit => simp [wfValue] at hwf
    | sStruct ss => simp [wfValue] at hwf
    | sSeq s2 => simp [wfValue] at hwf
    | sMap ks vs2 => simp [wfValue] at hwf
    | sEnum vars => simp [wfValue] at hwf
  | vStruct vs =>
    cases s with
    | sStruct ss =>
      simp [wfValue] at hwf
      obtain ⟨hlen, hlist⟩ := hwf
      simp only [noTV] at hnt
      simp only [encodeValue] at hpre hlt
      rcases prefixCases hpre with ⟨hql, hqp⟩ | ⟨Q2, rfl, hq2, hq2len⟩
      · obtain ⟨b2, hb2⟩ := read_varint_eof vs.length data pos Q hlen hpos hrest hqp hql
        refine ⟨b2, ?_⟩
        simp only [decodeValue]
        rw [hb2]
      · have hv := read_varint_ok vs.length data pos Q2 hlen hpos (by rw [hrest])
        have hb := rest_bound data pos (writeVarint vs.length) Q2 hpos (by rw [hrest])
        have hne : ¬(vs.length ≠ ss.length) := by simp [wfList_length ss vs hlist]
        obtain ⟨b3, hb3⟩ := decodeShapes_eofP ss vs hlist hnt data
          (pos + (writeVarint vs.length).length) Q2 hb.1 hb.2 hq2
          (by
            simp [List.length_append] at hlt
            omega)
        refine ⟨b3, ?_⟩
        simp only [decodeValue]
        rw [hv]
        simp [hne, hb3]
    | sBool => simp [wfValue] at hwf
    | sUInt w => simp [wfValue] at hwf
    | sInt w => simp [wfValue] at hwf
    | sF32 => simp [wfValue] at hwf
    | sF64 => simp [wfValue] at hwf
    | sChar => simp [wfValue] at hwf
    | sStr => simp [wfValue] at hwf
    | sBytes => simp [wfValue] at hwf
    | sOption s2 => simp [wfValue] at hwf
    | sUnit => simp [wfValue] at hwf
    | sTuple ss => simp [wfValue] at hwf
    | sSeq s2 => simp [wfValue] at hwf
    | sMap ks vs2 => simp [wfValue] at hwf
    | sEnum vars => simp [wfValue] at hwf
  | vSeq vs =>
    cases s with
    | sSeq s2 =>
      simp [wfValue] at hwf
      obtain ⟨hlen, hseq⟩ := hwf
      simp only [noTV] at hnt
      simp only [encodeValue] at hpre hlt
      rcases prefixCases hpre with ⟨hql, hqp⟩ | ⟨Q2, rfl, hq2, hq2len⟩
      · obtain ⟨b2, hb2⟩ := read_varint_eof vs.length data pos Q hlen hpos hrest hqp hql
        refine ⟨b2, ?_⟩
        simp only [decodeValue]
        rw [hb2]
      · have hv := read_varint_ok vs.length data pos Q2 hlen hpos (by rw [hrest])
        have hb := rest_bound data pos (writeVarint vs.length) Q2 hpos (by rw [hrest])
        obtain ⟨b3, hb3⟩ := decodeSeq_eofP s2 vs hseq hnt data
          (pos + (writeVarint vs.length).length) Q2 hb.1 hb.2 hq2
          (by
            simp [List.length_append] at hlt
            omega)
        refine ⟨b3, ?_⟩
        simp only [decodeValue]
        rw [hv]
        simp [hb3]
    | sBool => simp [wfValue] at hwf
    | sUInt w => simp [wfValue] at hwf
    | sInt w => simp [wfValue] at hwf
    | sF32 => simp [wfValue] at hwf
    | sF64 => simp [wfValue] at hwf
    | sChar => simp [wfValue] at hwf
    | sStr => simp [wfValue] at hwf
    | sBytes => simp [wfValue] at hwf
    | sOption s3 => simp [wfValue] at hwf
    | sUnit => simp [wfValue] at hwf
    | sTuple ss => simp [wfValue] at hwf
    | sStruct ss => simp [wfValue] at hwf
    | sMap ks vs2 => simp [wfValue] at hwf
    | sEnum vars => simp [wfValue] at hwf
  | vMap ps =>
    cases s with
    | sMap ks vs2 =>
      simp [wfValue] at hwf
      obtain ⟨hlen, hpairs⟩ := hwf
      simp only [noTV] at hnt
      simp only [encodeValue] at hpre hlt
      rcases prefixCases hpre with ⟨hql, hqp⟩ | ⟨Q2, rfl, hq2, hq2len⟩
      · obtain ⟨b2, hb2⟩ := read_varint_eof ps.length data pos Q hlen hpos hrest hqp hql
        refine ⟨b2, ?_⟩
        simp only [decodeValue]
        rw [hb2]
      · have hv := read_varint_ok ps.length data pos Q2 hlen hpos (by rw [hrest])
        have hb := rest_bound data pos (writeVarint ps.length) Q2 hpos (by rw [hrest])
        obtain ⟨b3, hb3⟩ := decodeMap_eofP ks vs2 ps hpairs hnt data
          (pos + (writeVarint ps.length).length) Q2 hb.1 hb.2 hq2
          (by
            simp [List.length_append] at hlt
            omega)
        refine ⟨b3, ?_⟩
        simp only [decodeValue]
        rw [hv]
        simp [hb3]
    | sBool => simp [wfValue] at hwf
    | sUInt w => simp [wfValue] at hwf
    | sInt w => simp [wfValue] at hwf
    | sF32 => simp [wfValue] at hwf
    | sF64 => simp [wfValue] at hwf
    | sChar => simp [wfValue] at hwf
    | sStr => simp [wfValue] at hwf
    | sBytes => simp [wfValue] at hwf
    | sOption s2 => simp [wfValue] at hwf
    | sUnit => simp [wfValue] at hwf
    | sTuple ss => simp [wfValue] at hwf
    | sStruct ss => simp [wfValue] at hwf
    | sSeq s2 => simp [wfValue] at hwf
    | sEnum vars => simp [wfValue] at hwf
  | vVariant idx p =>
    cases s with
    | sEnum vars =>
      simp only [wfValue, Bool.and_eq_true, decide_eq_true_eq] at hwf
      obtain ⟨hidx, hmatch⟩ := hwf
      cases hv : vars[idx]? with
      | none =>
        rw [hv] at hmatch
        have hfalse : false = true := hmatch
        simp at hfalse
      | some vsh =>
        rw [hv] at hmatch
        have hpay : wfPayload vsh p = true := hmatch
        clear hmatch
        have hlt2 : idx < vars.length := by
          by_contra hge
          rw [List.getElem?_eq_none (by omega)] at hv
          simp at hv
        have hget : vars[idx] = vsh := by
          rw [List.getElem?_eq_getElem hlt2] at hv
          simpa using hv
        have hidx64 : idx < 2 ^ 64 := by
          have h3264 : (2 : Nat) ^ 32 < 2 ^ 64 := by norm_num
          omega
        simp only [encodeValue] at hpre hlt
        rcases prefixCases hpre with ⟨hql, hqp⟩ | ⟨Q2, rfl, hq2, hq2len⟩
        · obtain ⟨b2, hb2⟩ := read_varint_eof idx data pos Q hidx64 hpos hrest hqp hql
          refine ⟨b2, ?_⟩
          simp only [decodeValue]
          rw [hb2]
        · have hvarint := read_varint_ok idx data pos Q2 hidx64 hpos (by rw [hrest])
          have hb := rest_bound data pos (writeVarint idx) Q2 hpos (by rw [hrest])
          have hstep : decodeValue (Shape.sEnum vars) ⟨data, pos⟩ =
              decodeVariant vsh idx ⟨data, pos + (writeVarint idx).length⟩ := by
            simp only [decodeValue]
            rw [hvarint]
            simp [hlt2, hget]
          rw [hstep]
          cases p with
          | unit =>
            cases vsh <;> simp [wfPayload] at hpay
            simp [encodePayload] at hlt
          | newtype v =>
            cases vsh with
            | newtype s2 =>
              simp only [wfPayload] at hpay
              simp only [noTV] at hnt
              obtain ⟨b3, hb3⟩ := decodeValue_eofP s2 v hpay hnt data
                (pos + (writeVarint idx).length) Q2 hb.1 hb.2
                (by simpa [encodePayload] using hq2)
                (by
                  simp [encodePayload, List.length_append] at hlt
                  omega)
              refine ⟨b3, ?_⟩
              simp only [decodeVariant]
              rw [hb3]
            | unit => simp [wfPayload] at hpay
            | tuple ss2 => simp [wfPayload] at hpay
            | struct ss2 => simp [wfPayload] at hpay
          | tuple vs3 =>
            simp [noTV] at hnt
          | struct vs3 =>
            cases vsh with
            | struct ss2 =>
              simp [wfPayload] at hpay
              obtain ⟨hlen3, hlist3⟩ := hpay
              simp only [noTV] at hnt
              have hq2pre : Q2 <+: writeVarint vs3.length ++ encodeList vs3 := by
                simpa [encodePayload] using hq2
              rcases prefixCases hq2pre with ⟨hql3, hqp3⟩ | ⟨Q3, rfl, hq3, hq3len⟩
              · obtain ⟨b2, hb2⟩ := read_varint_eof vs3.length data
                  (pos + (writeVarint idx).length) Q2 hlen3 hb.1 hb.2 hqp3 hql3
                refine ⟨b2, ?_⟩
                simp only [decodeVariant]
                rw [hb2]
              · have hv2 := read_varint_ok vs3.length data
                  (pos + (writeVarint idx).length) Q3 hlen3 hb.1 (by rw [hb.2])
                have hb2 := rest_bound data (pos + (writeVarint idx).length)
                  (writeVarint vs3.length) Q3 hb.1 (by rw [hb.2])
                have hne : ¬(vs3.length ≠ ss2.length) := by
                  simp [wfList_length ss2 vs3 hlist3]
                obtain ⟨b3, hb3⟩ := decodeShapes_eofP ss2 vs3 hlist3 hnt data
                  (pos + (writeVarint idx).length + (writeVarint vs3.length).length) Q3
                  hb2.1 hb2.2 hq3
                  (by
                    simp [encodePayload, List.length_append] at hlt
                    omega)
                refine ⟨b3, ?_⟩
                simp only [decodeVariant]
                rw [hv2]
                simp [hne, hb3]
            | unit => simp [wfPayload] at hpay
            | newtype s2 => simp [wfPayload] at hpay
            | tuple ss2 => simp [wfPayload] at hpay
    | sBool => simp [wfValue] at hwf
    | sUInt w => simp [wfValue] at hwf
    | sInt w => simp [wfValue] at hwf
    | sF32 => simp [wfValue] at hwf
    | sF64 => simp [wfValue] at hwf
    | sChar => simp [wfValue] at hwf
    | sStr => simp [wfValue] at hwf
    | sBytes => simp [wfValue] at hwf
    | sOption s2 => simp [wfValue] at hwf
    | sUnit => simp [wfValue] at hwf
    | sTuple ss => simp [wfValue] at hwf
    | sStruct ss => simp [wfValue] at hwf
    | sSeq s2 => simp [wfValue] at hwf
    | sMap ks vs2 => simp [wfValue] at hwf
termination_by sizeOf v
decreasing_by
  all_goals subst_vars
  all_goals simp_arith
  all_goals omega

theorem decodeShapes_eofP (ss : List Shape) (vs : List Value) (hwf : wfList ss vs = true)
    (hnt : noTVList vs = true) (data : List Nat) (pos : Nat) (Q : List Nat)
    (hpos : pos ≤ data.length) (hrest : data.drop pos = Q)
    (hpre : Q <+: encodeList vs) (hlt : Q.length < (encodeList vs).length) :
    ∃ b2, decodeShapes ss ⟨data, pos⟩ = .err .unexpectedEof b2 := by
  cases ss with
  | nil =>
    cases vs with
    | nil => simp [encodeList] at hlt
    | cons v vs2 => simp [wfList] at hwf
  | cons s ss2 =>
    cases vs with
    | nil => simp [wfList] at hwf
    | cons v vs2 =>
      simp [wfList] at hwf
      obtain ⟨h1, h2⟩ := hwf
      simp [noTVList] at hnt
      obtain ⟨hn1, hn2⟩ := hnt
      simp only [encodeList] at hpre hlt
      rcases prefixCases hpre with ⟨hql, hqp⟩ | ⟨Q2, rfl, hq2, hq2len⟩
      · obtain ⟨b2, hb2⟩ := decodeValue_eofP s v h1 hn1 data pos Q hpos hrest hqp hql
        refine ⟨b2, ?_⟩
        simp only [decodeShapes]
        rw [hb2]
      · have hv := decodeValue_enc s v h1 hn1 data pos Q2 hpos (by rw [hrest])
        have hb := rest_bound data pos (encodeValue v) Q2 hpos (by rw [hrest])
        obtain ⟨b3, hb3⟩ := decodeShapes_eofP ss2 vs2 h2 hn2 data
          (pos + (encodeValue v).length) Q2 hb.1 hb.2 hq2
          (by
            simp [List.length_append] at hlt
            omega)
        refine ⟨b3, ?_⟩
        simp only [decodeShapes]
        rw [hv]
        simp [hb3]
termination_by sizeOf vs
decreasing_by
  all_goals subst_vars
  all_goals simp_arith
  all_goals omega

theorem decodeSeq_eofP (s : Shape) (vs : List Value) (hwf : wfSeq s vs = true)
    (hnt : noTVList vs = true) (data : List Nat) (pos : Nat) (Q : List Nat)
    (hpos : pos ≤ data.length) (hrest : data.drop pos = Q)
    (hpre : Q <+: encodeList vs) (hlt : Q.length < (encodeList vs).length) :
    ∃ b2, decodeSeq s vs.length ⟨data, pos⟩ = .err .unexpectedEof b2 := by
  cases vs with
  | nil => simp [encodeList] at hlt
  | cons v vs2 =>
    simp [wfSeq] at hwf
    obtain ⟨h1, h2⟩ := hwf
    simp [noTVList] at hnt
    obtain ⟨hn1, hn2⟩ := hnt
    simp only [encodeList] at hpre hlt
    rcases prefixCases hpre with ⟨hql, hqp⟩ | ⟨Q2, rfl, hq2, hq2len⟩
    · obtain ⟨b2, hb2⟩ := decodeValue_eofP s v h1 hn1 data pos Q hpos hrest hqp hql
      refine ⟨b2, ?_⟩
      simp only [List.length_cons, decodeSeq]
      rw [hb2]
    · have hv := decodeValue_enc s v h1 hn1 data pos Q2 hpos (by rw [hrest])
      have hb := rest_bound data pos (encodeValue v) Q2 hpos (by rw [hrest])
      obtain ⟨b3, hb3⟩ := decodeSeq_eofP s vs2 h2 hn2 data
        (pos + (encodeValue v).length) Q2 hb.1 hb.2 hq2
        (by
          simp [List.length_append] at hlt
          omega)
      refine ⟨b3, ?_⟩
      simp only [List.length_cons, decodeSeq]
      rw [hv]
      simp [hb3]
termination_by sizeOf vs
decreasing_by
  all_goals subst_vars
  all_goals simp_arith
  all_goals omega

theorem decodeMap_eofP (ks vs : Shape) (ps : List (Value × Value))
    (hwf : wfPairs ks vs ps = true) (hnt : noTVPairs ps = true)
    (data : List Nat) (pos : Nat) (Q : List Nat)
    (hpos : pos ≤ data.length) (hrest : data.drop pos = Q)
    (hpre : Q <+: encodePairs ps) (hlt : Q.length < (encodePairs ps).length) :
    ∃ b2, decodeMap ks vs ps.length ⟨data, pos⟩ = .err .unexpectedEof b2 := by
  cases ps with
  | nil => simp [encodePairs] at hlt
  | cons p ps2 =>
    rw [wfPairs_cons] at hwf
    simp only [Bool.and_eq_true] at hwf
    obtain ⟨⟨h1, h2⟩, h3⟩ := hwf
    rw [noTVPairs_cons] at hnt
    simp only [Bool.and_eq_true] at hnt
    obtain ⟨⟨hn1, hn2⟩, hn3⟩ := hnt
    rw [encodePairs_cons] at hpre hlt
    rw [List.append_assoc] at hpre hlt
    rcases prefixCases hpre with ⟨hql, hqp⟩ | ⟨Q2, rfl, hq2, hq2len⟩
    · obtain ⟨b2, hb2⟩ := decodeValue_eofP ks p.1 h1 hn1 data pos Q hpos hrest hqp hql
      refine ⟨b2, ?_⟩
      simp only [List.length_cons, decodeMap]
      rw [hb2]
    · have hk := decodeValue_enc ks p.1 h1 hn1 data pos Q2 hpos (by rw [hrest])
      have hb := rest_bound data pos (encodeValue p.1) Q2 hpos (by rw [hrest])
      rcases prefixCases hq2 with ⟨hql2, hqp2⟩ | ⟨Q3, rfl, hq3, hq3len⟩
      · obtain ⟨b2, hb2⟩ := decodeValue_eofP vs p.2 h2 hn2 data
          (pos + (encodeValue p.1).length) Q2 hb.1 hb.2 hqp2 hql2
        refine ⟨b2, ?_⟩
        simp only [List.length_cons, decodeMap]
        rw [hk]
        simp [hb2]
      · have hv := decodeValue_enc vs p.2 h2 hn2 data
          (pos + (encodeValue p.1).length) Q3 hb.1 (by rw [hb.2])
        have hb2 := rest_bound data (pos + (encodeValue p.1).length)
          (encodeValue p.2) Q3 hb.1 (by rw [hb.2])
        obtain ⟨b3, hb3⟩ := decodeMap_eofP ks vs ps2 h3 hn3 data
          (pos + (encodeValue p.1).length + (encodeValue p.2).length) Q3
          hb2.1 hb2.2 hq3
          (by
            simp [List.length_append] at hlt
            omega)
        refine ⟨b3, ?_⟩
        simp only [List.length_cons, decodeMap]
        rw [hk]
        simp [hv, hb3]
termination_by sizeOf ps
decreasing_by
  all_goals subst_vars
  all_goals try (cases p)
  all_goals simp_arith
  all_goals omega

end

/-! ### `from_bytes` corollaries -/

theorem deser_new_ok (body : List Nat) :
    Deserializer.new (78 :: 65 :: 78 :: 79 :: 1 :: body) = .ok (ReadBuffer.new body) := by
  unfold Deserializer.new
  rw [if_neg (by simp)]
  rw [if_neg (by simp [MAGIC])]
  rw [if_neg (by simp [VERSION])]
  rfl

theorem take_cons5 (a b c d e : Nat) (l : List Nat) (k : Nat) :
    (a :: b :: c :: d :: e :: l).take (k + 5) = a :: b :: c :: d :: e :: l.take k := rfl

/-- Decoding `to_bytes v ++ extra` as `v`'s shape recovers exactly `v` and
never looks at `extra`, for any well-formed value without tuple variants. -/
theorem from_bytes_to_bytes_noTV (s : Shape) (v : Value) (extra : List Nat)
    (hwf : wfValue s v = true) (hnt : noTV v = true) :
    from_bytes s (to_bytes v ++ extra) = .ok v := by
  have hform : to_bytes v ++ extra = 78 :: 65 :: 78 :: 79 :: 1 :: (encodeValue v ++ extra) := by
    simp [to_bytes, MAGIC, VERSION]
  rw [hform]
  unfold from_bytes
  rw [deser_new_ok]
  have hd := decodeValue_enc s v hwf hnt (encodeValue v ++ extra) 0 extra
    (by omega) (by simp)
  simp only [ReadBuffer.new]
  rw [hd]

/-- Decoding a strict prefix of an encoding fails: with `InvalidFormat` when
even the 5-byte header is cut short, and with `UnexpectedEof` otherwise. -/
theorem from_bytes_strict_front (s : Shape) (v : Value) (P : List Nat)
    (hwf : wfValue s v = true) (hnt : noTV v = true)
    (hpre : P <+: to_bytes v) (hlt : P.length < (to_bytes v).length) :
    from_bytes s P =
      .error (if P.length < 5 then Error.invalidFormat tooShortMsg
              else Error.unexpectedEof) := by
  by_cases h5 : P.length < 5
  · rw [if_pos h5]
    unfold from_bytes Deserializer.new
    rw [if_pos h5]
  · rw [if_neg h5]
    have hto : to_bytes v = 78 :: 65 :: 78 :: 79 :: 1 :: encodeValue v := by
      simp [to_bytes, MAGIC, VERSION]
    rw [hto] at hpre hlt
    have hlt2 : P.length < (encodeValue v).length + 5 := by simpa using hlt
    have hPtake : P = (78 :: 65 :: 78 :: 79 :: 1 :: encodeValue v).take P.length :=
      List.prefix_iff_eq_take.mp hpre
    have hPform : P = 78 :: 65 :: 78 :: 79 :: 1 :: (encodeValue v).take (P.length - 5) := by
      conv_lhs => rw [hPtake]
      rw [show P.length = (P.length - 5) + 5 by omega]
      rw [take_cons5]
      simp
    have hklt : P.length - 5 < (encodeValue v).length := by omega
    obtain ⟨b2, hb2⟩ := decodeValue_eofP s v hwf hnt
      ((encodeValue v).take (P.length - 5)) 0 ((encodeValue v).take (P.length - 5))
      (by omega) (by simp) (List.take_prefix _ _)
      (by
        rw [List.length_take]
        omega)
    rw [hPform]
    unfold from_bytes
    rw [deser_new_ok]
    simp only [ReadBuffer.new]
    rw [hb2]

/-! ### Cursor facts for the read primitives -/

/-- Full case analysis of `read_u8`: out-of-bounds failure keeps the buffer,
success returns the byte under the cursor and advances by one. -/
theorem read_u8_cases (b : ReadBuffer) :
    (b.data.length ≤ b.position ∧ b.read_u8 = .err .unexpectedEof b) ∨
    (b.position < b.data.length ∧
      b.read_u8 = .ok (b.data.getD b.position 0) ⟨b.data, b.position + 1⟩) := by
  unfold ReadBuffer.read_u8
  by_cases h : b.position ≥ b.data.length
  · exact Or.inl ⟨h, by rw [if_pos h]⟩
  · exact Or.inr ⟨by omega, by rw [if_neg h]⟩

/-- Full case analysis of `read_bytes`. -/
theorem read_bytes_cases (b : ReadBuffer) (len : Nat) :
    (b.data.length < b.position + len ∧ b.read_bytes len = .err .unexpectedEof b) ∨
    (b.position + len ≤ b.data.length ∧
      b.read_bytes len = .ok ((b.data.drop b.position).take len) ⟨b.data, b.position + len⟩) := by
  unfold ReadBuffer.read_bytes
  by_cases h : b.position + len > b.data.length
  · exact Or.inl ⟨h, by rw [if_pos h]⟩
  · exact Or.inr ⟨by omega, by rw [if_neg h]⟩

/-- Full case analysis of `skip`. -/
theorem skip_cases (b : ReadBuffer) (count : Nat) :
    (b.data.length < b.position + count ∧ b.skip count = .err .unexpectedEof b) ∨
    (b.position + count ≤ b.data.length ∧
      b.skip count = .ok () ⟨b.data, b.position + count⟩) := by
  unfold ReadBuffer.skip
  by_cases h : b.position + count > b.data.length
  · exact Or.inl ⟨h, by rw [if_pos h]⟩
  · exact Or.inr ⟨by omega, by rw [if_neg h]⟩

/-- `peek_u8` never moves the buffer, on success or failure. -/
theorem peek_u8_buf (b : ReadBuffer) : (b.peek_u8).buf = b := by
  unfold ReadBuffer.peek_u8
  split <;> rfl

/-- The relation between a buffer and the buffer carried by the result of one
of its read operations: same underlying slice, cursor moved forward but never
past the end.  With `Nat` positions this is exactly the source invariant
`0 ≤ position ≤ data.len()`. -/
def cursorOk (b r : ReadBuffer) : Prop :=
  r.data = b.data ∧ b.position ≤ r.position ∧ r.position ≤ b.data.length

theorem cursorOk_refl (b : ReadBuffer) (h : b.position ≤ b.data.length) :
    cursorOk b b :=
  ⟨rfl, Nat.le_refl _, h⟩

theorem cursorOk_trans {a b c : ReadBuffer} (h1 : cursorOk a b) (h2 : cursorOk b c) :
    cursorOk a c := by
  obtain ⟨hd1, hp1, hl1⟩ := h1
  obtain ⟨hd2, hp2, hl2⟩ := h2
  refine ⟨hd2.trans hd1, hp1.trans hp2, ?_⟩
  rw [hd1] at hl2
  exact hl2

theorem cursorOk_wf {b r : ReadBuffer} (h : cursorOk b r) :
    r.position ≤ r.data.length := by
  obtain ⟨hd, _, hl⟩ := h
  rw [hd]
  exact hl

theorem read_u8_cursor (b : ReadBuffer) (h : b.position ≤ b.data.length) :
    cursorOk b (b.read_u8).buf := by
  rcases read_u8_cases b with ⟨_, heq⟩ | ⟨hlt, heq⟩
  · rw [heq]
    exact cursorOk_refl b h
  · rw [heq]
    exact ⟨rfl, Nat.le_succ _, hlt⟩

theorem read_bytes_cursor (b : ReadBuffer) (len : Nat) (h : b.position ≤ b.data.length) :
    cursorOk b ((b.read_bytes len)).buf := by
  rcases read_bytes_cases b len with ⟨_, heq⟩ | ⟨hle, heq⟩
  · rw [heq]
    exact cursorOk_refl b h
  · rw [heq]
    exact ⟨rfl, Nat.le_add_right _ _, hle⟩

theorem skip_cursor (b : ReadBuffer) (count : Nat) (h : b.position ≤ b.data.length) :
    cursorOk b ((b.skip count)).buf := by
  rcases skip_cases b count with ⟨_, heq⟩ | ⟨hle, heq⟩
  · rw [heq]
    exact cursorOk_refl b h
  · rw [heq]
    exact ⟨rfl, Nat.le_add_right _ _, hle⟩

theorem read_u16_cursor (b : ReadBuffer) (h : b.position ≤ b.data.length) :
    cursorOk b (b.read_u16).buf := by
  have hb := read_bytes_cursor b 2 h
  unfold ReadBuffer.read_u16
  rcases read_bytes_cases b 2 with ⟨_, heq⟩ | ⟨_, heq⟩ <;> rw [heq] at hb ⊢ <;> exact hb

theorem read_u32_cursor (b : ReadBuffer) (h : b.position ≤ b.data.length) :
    cursorOk b (b.read_u32).buf := by
  have hb := read_bytes_cursor b 4 h
  unfold ReadBuffer.read_u32
  rcases read_bytes_cases b 4 with ⟨_, heq⟩ | ⟨_, heq⟩ <;> rw [heq] at hb ⊢ <;> exact hb

theorem read_u64_cursor (b : ReadBuffer) (h : b.position ≤ b.data.length) :
    cursorOk b (b.read_u64).buf := by
  have hb := read_bytes_cursor b 8 h
  unfold ReadBuffer.read_u64
  rcases read_bytes_cases b 8 with ⟨_, heq⟩ | ⟨_, heq⟩ <;> rw [heq] at hb ⊢ <;> exact hb

theorem readVarintLoop_cursor (shift result : Nat) (b : ReadBuffer)
    (h : b.position ≤ b.data.length) :
    cursorOk b (readVarintLoop b result shift).buf := by
  rw [readVarintLoop]
  by_cases h64 : 64 ≤ shift
  · rw [dif_pos h64]
    exact cursorOk_refl b h
  · rw [dif_neg h64]
    rcases read_u8_cases b with ⟨_, heq⟩ | ⟨hlt, heq⟩
    · rw [heq]
      exact cursorOk_refl b h
    · rw [heq]
      by_cases hbit : b.data.getD b.position 0 &&& 128 = 0
      · simp only [hbit, eq_self_iff_true, ite_true, RResult.buf]
        exact ⟨rfl, Nat.le_succ _, hlt⟩
      · simp only [hbit, ite_false]
        exact cursorOk_trans
          (show cursorOk b ⟨b.data, b.position + 1⟩ from ⟨rfl, Nat.le_succ _, hlt⟩)
          (readVarintLoop_cursor (shift + 7) _ ⟨b.data, b.position + 1⟩ hlt)
termination_by 64 - shift
decreasing_by omega

theorem read_varint_cursor (b : ReadBuffer) (h : b.position ≤ b.data.length) :
    cursorOk b (b.read_varint).buf :=
  readVarintLoop_cursor 0 0 b h

theorem read_byte_slice_cursor (b : ReadBuffer) (h : b.position ≤ b.data.length) :
    cursorOk b (b.read_byte_slice).buf := by
  unfold ReadBuffer.read_byte_slice
  have h2 := read_varint_cursor b h
  cases hv : b.read_varint with
  | err e b2 =>
    rw [hv] at h2
    exact h2
  | ok len b2 =>
    rw [hv] at h2
    exact cursorOk_trans h2 (read_bytes_cursor b2 len (cursorOk_wf h2))

theorem read_str_cursor (b : ReadBuffer) (h : b.position ≤ b.data.length) :
    cursorOk b (b.read_str).buf := by
  unfold ReadBuffer.read_str
  have h2 := read_byte_slice_cursor b h
  cases hv : b.read_byte_slice with
  | err e b2 =>
    rw [hv] at h2
    exact h2
  | ok bs b2 =>
    rw [hv] at h2
    show cursorOk b ((if utf8Valid bs then RResult.ok bs b2
      else RResult.err (Error.invalidFormat badUtf8Msg) b2)).buf
    split <;> exact h2

theorem peek_u8_cursor (b : ReadBuffer) (h : b.position ≤ b.data.length) :
    cursorOk b (b.peek_u8).buf := by
  rw [peek_u8_buf]
  exact cursorOk_refl b h

/-! ### The varint round-trip at one value -/

/-- `write_varint` then `read_varint` recovers `n`, reading back exactly the
bytes that were written. -/
def varintRT (n : Nat) : Prop :=
  ReadBuffer.read_varint ⟨((WriteBuffer.new).write_varint n).data, 0⟩ =
    .ok n ⟨((WriteBuffer.new).write_varint n).data,
           ((WriteBuffer.new).write_varint n).data.length⟩

theorem varintRT_of_lt (n : Nat) (h : n < 2 ^ 64) : varintRT n := by
  unfold varintRT
  simp only [WriteBuffer.new, WriteBuffer.write_varint, List.nil_append]
  have key := read_varint_ok n (writeVarint n) 0 [] h (by omega) (by simp)
  simpa using key

/-! ### The ten claims -/

/-- C1: the round-trip `from_bytes (to_bytes v) = Ok v` claimed for every
supported value fails on tuple variants.  The well-formed two-field tuple
variant below serializes to a 9-byte message whose payload carries the arity
`2` once, as `tuple_variant` writes it; but the deserializer's
`tuple_variant` checks the arity varint and then calls `deserialize_tuple`,
which consumes a second arity varint that was never written, so decoding the
encoder's own output fails with a length mismatch instead of returning the
value. -/
theorem c1_roundtrip_fails_on_tuple_variant :
    wfValue (Shape.sEnum [VariantShape.tuple [Shape.sUInt .w8, Shape.sUInt .w8]])
      (Value.vVariant 0 (VariantValue.tuple [Value.vUInt .w8 1, Value.vUInt .w8 2])) = true ∧
    to_bytes (Value.vVariant 0 (VariantValue.tuple [Value.vUInt .w8 1, Value.vUInt .w8 2])) =
      [78, 65, 78, 79, 1, 0, 2, 1, 2] ∧
    from_bytes (Shape.sEnum [VariantShape.tuple [Shape.sUInt .w8, Shape.sUInt .w8]])
      (to_bytes (Value.vVariant 0 (VariantValue.tuple [Value.vUInt .w8 1, Value.vUInt .w8 2]))) =
      .error (.invalidFormat (tupleLenMsg 2 1)) := by
  refine ⟨by simp +decide [wfValue, wfPayload, wfList], ?_, ?_⟩
  · simp +decide [to_bytes, MAGIC, VERSION, encodeValue, encodePayload, encodeList,
      writeVarint, leBytes, Wd.bytes]
  · simp +decide [to_bytes, MAGIC, VERSION, encodeValue, encodePayload, encodeList,
      writeVarint, leBytes, Wd.bytes, from_bytes, Deserializer.new, ReadBuffer.new,
      decodeValue, decodeVariant, ReadBuffer.read_varint, readVarintLoop,
      ReadBuffer.read_u8, decodeShapes]

/-- C2: decoding a strict prefix of a valid encoding does not always fail.
Because `tuple_variant` consumes an extra arity varint, a strict prefix of
the encoding of a tuple variant whose first field starts with the byte `2`
can decode successfully (to a different value): the claim that every strict
prefix fails with a truncation error is false as stated. -/
theorem c2_strict_prefix_decodes_successfully :
    wfValue (Shape.sEnum [VariantShape.tuple [Shape.sBytes, Shape.sUInt .w8]])
      (Value.vVariant 0 (VariantValue.tuple [Value.vBytes [0, 9], Value.vUInt .w8 7])) = true ∧
    ((to_bytes (Value.vVariant 0
        (VariantValue.tuple [Value.vBytes [0, 9], Value.vUInt .w8 7]))).take 10).length <
      (to_bytes (Value.vVariant 0
        (VariantValue.tuple [Value.vBytes [0, 9], Value.vUInt .w8 7]))).length ∧
    from_bytes (Shape.sEnum [VariantShape.tuple [Shape.sBytes, Shape.sUInt .w8]])
      ((to_bytes (Value.vVariant 0
        (VariantValue.tuple [Value.vBytes [0, 9], Value.vUInt .w8 7]))).take 10) =
      .ok (Value.vVariant 0 (VariantValue.tuple [Value.vBytes [], Value.vUInt .w8 9])) := by
  refine ⟨by simp +decide [wfValue, wfPayload, wfList], ?_, ?_⟩
  · simp +decide [to_bytes, MAGIC, VERSION, encodeValue, encodePayload, encodeList,
      writeVarint, leBytes, Wd.bytes]
  · simp +decide [to_bytes, MAGIC, VERSION, encodeValue, encodePayload, encodeList,
      writeVarint, leBytes, Wd.bytes, from_bytes, Deserializer.new, ReadBuffer.new,
      decodeValue, decodeVariant, ReadBuffer.read_varint, readVarintLoop,
      ReadBuffer.read_u8, decodeShapes, ReadBuffer.read_byte_slice, ReadBuffer.read_bytes]

/-- C2 (amended): for every well-formed value without tuple variants and
every strict prefix `P` of its encoding, decoding `P` fails — with
`InvalidFormat` when even the 5-byte header is cut short, and with
`UnexpectedEof` otherwise — and the bounds-checked reads never index past the
end of `P`. -/
theorem c2_truncation_amended (s : Shape) (v : Value) (P : List Nat)
    (hwf : wfValue s v = true) (hnt : noTV v = true)
    (hpre : P <+: to_bytes v) (hlt : P.length < (to_bytes v).length) :
    from_bytes s P =
      .error (if P.length < 5 then Error.invalidFormat tooShortMsg
              else Error.unexpectedEof) :=
  from_bytes_strict_front s v P hwf hnt hpre hlt

theorem c2_truncation_amended_witness :
    from_bytes (Shape.sUInt .w32) [78, 65, 78, 79, 1, 42, 0] =
      .error Error.unexpectedEof := by
  have h := c2_truncation_amended (Shape.sUInt .w32) (Value.vUInt .w32 42)
    [78, 65, 78, 79, 1, 42, 0]
    (by simp +decide [wfValue])
    (by simp [noTV])
    ⟨[0, 0], by simp +decide [to_bytes, MAGIC, VERSION, encodeValue, leBytes, Wd.bytes]⟩
    (by simp +decide [to_bytes, MAGIC, VERSION, encodeValue, leBytes, Wd.bytes])
  simpa using h

/-- C3: `read_varint` does not fail exactly when the payload exceeds 64 bits.
On the 10-byte input below the tenth byte contributes `2 <<< 63 = 2 ^ 64`,
so the encoded payload exceeds 64 bits, yet decoding succeeds — the
out-of-range chunk is silently reduced mod `2 ^ 64` and the call returns
`0` instead of an `InvalidFormat` error. -/
theorem c3_oversized_payload_decodes_ok :
    ReadBuffer.read_varint ⟨[128, 128, 128, 128, 128, 128, 128, 128, 128, 2], 0⟩ =
      .ok 0 ⟨[128, 128, 128, 128, 128, 128, 128, 128, 128, 2], 10⟩ ∧
    2 ^ 64 ≤ (2 &&& 127) <<< 63 ∧
    ∀ e b2, ReadBuffer.read_varint ⟨[128, 128, 128, 128, 128, 128, 128, 128, 128, 2], 0⟩ ≠
      .err e b2 := by
  have h1 : ReadBuffer.read_varint ⟨[128, 128, 128, 128, 128, 128, 128, 128, 128, 2], 0⟩ =
      .ok 0 ⟨[128, 128, 128, 128, 128, 128, 128, 128, 128, 2], 10⟩ := by
    simp +decide [ReadBuffer.read_varint, readVarintLoop, ReadBuffer.read_u8]
  refine ⟨h1, by decide, ?_⟩
  intro e b2 hc
  rw [h1] at hc
  simp at hc

/-- C3 (amended): `read_varint` fails with `InvalidFormat` exactly when ten
bytes with the continuation bit set are read (regardless of the payload they
carry), and on any buffer whose unread bytes start with `write_varint n` for
`n < 2 ^ 64` it succeeds with exactly `n`. -/
theorem c3_varint_error_amended :
    (∀ data pos,
      (∃ b2, ReadBuffer.read_varint ⟨data, pos⟩ = .err (.invalidFormat varintLongMsg) b2) ↔
        10 ≤ (data.drop pos).length ∧
          ∀ i, i < 10 → (data.drop pos).getD i 0 &&& 128 ≠ 0) ∧
    (∀ n data pos tail, n < 2 ^ 64 → pos ≤ data.length →
      data.drop pos = writeVarint n ++ tail →
      ReadBuffer.read_varint ⟨data, pos⟩ = .ok n ⟨data, pos + (writeVarint n).length⟩) :=
  ⟨read_varint_invalid_iff,
   fun n data pos tail hn hpos h => read_varint_ok n data pos tail hn hpos h⟩

theorem c3_varint_error_amended_witness :
    (∃ b2, ReadBuffer.read_varint
        ⟨[128, 128, 128, 128, 128, 128, 128, 128, 128, 128], 0⟩ =
      .err (.invalidFormat varintLongMsg) b2) ∧
    ReadBuffer.read_varint ⟨[172, 2], 0⟩ =
      .ok 300 ⟨[172, 2], 0 + (writeVarint 300).length⟩ := by
  constructor
  · exact (c3_varint_error_amended.1 [128, 128, 128, 128, 128, 128, 128, 128, 128, 128] 0).mpr
      (by decide)
  · exact c3_varint_error_amended.2 300 [172, 2] 0 [] (by norm_num) (by norm_num)
      (by simp +decide [writeVarint])

/-- C4: header validation behaves exactly as claimed: fewer than 5 bytes
fail with `InvalidFormat`, a wrong 4-byte magic fails with `InvalidFormat`,
and a correct magic with an unknown 5th byte fails with
`UnsupportedVersion` carrying that byte. -/
theorem c4_header_validation (s : Shape) (data : List Nat) :
    (data.length < 5 → from_bytes s data = .error (.invalidFormat tooShortMsg)) ∧
    (5 ≤ data.length → data.take 4 ≠ MAGIC →
      from_bytes s data = .error (.invalidFormat badMagicMsg)) ∧
    (5 ≤ data.length → data.take 4 = MAGIC → data.getD 4 0 ≠ VERSION →
      from_bytes s data = .error (.unsupportedVersion (data.getD 4 0))) := by
  refine ⟨?_, ?_, ?_⟩
  · intro h5
    unfold from_bytes Deserializer.new
    simp [h5]
  · intro h5 hm
    unfold from_bytes Deserializer.new
    simp [Nat.not_lt.mpr h5, hm]
  · intro h5 hm hv
    have hv2 : data[4]?.getD 0 ≠ VERSION := by simpa [List.getD] using hv
    have hgoal : data.getD 4 0 = data[4]?.getD 0 := by simp [List.getD]
    unfold from_bytes Deserializer.new
    rw [hgoal]
    simp [Nat.not_lt.mpr h5, hm, hv2]

theorem c4_header_validation_witness :
    from_bytes Shape.sBool [1, 2] = .error (.invalidFormat tooShortMsg) ∧
    from_bytes Shape.sBool [9, 9, 9, 9, 9, 0] = .error (.invalidFormat badMagicMsg) ∧
    from_bytes Shape.sBool [78, 65, 78, 79, 7, 0] = .error (.unsupportedVersion 7) := by
  refine ⟨(c4_header_validation Shape.sBool [1, 2]).1 (by norm_num),
          (c4_header_validation Shape.sBool [9, 9, 9, 9, 9, 0]).2.1 (by norm_num) (by decide),
          ?_⟩
  have h := (c4_header_validation Shape.sBool [78, 65, 78, 79, 7, 0]).2.2
    (by norm_num) (by decide) (by decide)
  simpa using h

/-- C5: arity enforcement is broken for tuple variants.  On the input below
the encoded count prefix of the tuple variant is `2` and equals the
statically expected arity `2`, so by the claim exactly 2 fields should then
be decoded; instead `tuple_variant` hands off to `deserialize_tuple`, which
reads the first field byte `5` as a second count and rejects the input with
a length mismatch `expected 2, got 5`. -/
theorem c5_matching_arity_still_rejected :
    from_bytes (Shape.sEnum [VariantShape.tuple [Shape.sUInt .w8, Shape.sUInt .w8]])
      [78, 65, 78, 79, 1, 0, 2, 5, 6] = .error (.invalidFormat (tupleLenMsg 2 5)) := by
  simp +decide [from_bytes, Deserializer.new, MAGIC, VERSION, ReadBuffer.new,
    decodeValue, decodeVariant, ReadBuffer.read_varint, readVarintLoop,
    ReadBuffer.read_u8, decodeShapes]

/-- C6: for every value `v`, `to_bytes v` is the 4 magic bytes `b"NANO"`,
then the version byte `1`, then exactly the body accumulated for `v`. -/
theorem c6_to_bytes_header :
    ∀ v : Value,
      to_bytes v = MAGIC ++ VERSION :: encodeValue v ∧
      (to_bytes v).take 4 = MAGIC ∧
      (to_bytes v).getD 4 0 = VERSION ∧
      (to_bytes v).drop 5 = encodeValue v := by
  intro v
  refine ⟨rfl, ?_, ?_, ?_⟩ <;> simp [to_bytes, MAGIC, VERSION]

/-- C7: each of the nine spec values round-trips through
`WriteBuffer::write_varint` and `ReadBuffer::read_varint` exactly. -/
theorem c7_varint_specific_values_roundtrip :
    varintRT 0 ∧ varintRT 127 ∧ varintRT 128 ∧ varintRT 255 ∧ varintRT 256 ∧
    varintRT 16384 ∧ varintRT (2 ^ 31) ∧ varintRT (2 ^ 63) ∧ varintRT (2 ^ 64 - 1) :=
  ⟨varintRT_of_lt 0 (by norm_num), varintRT_of_lt 127 (by norm_num),
   varintRT_of_lt 128 (by norm_num), varintRT_of_lt 255 (by norm_num),
   varintRT_of_lt 256 (by norm_num), varintRT_of_lt 16384 (by norm_num),
   varintRT_of_lt (2 ^ 31) (by norm_num), varintRT_of_lt (2 ^ 63) (by norm_num),
   varintRT_of_lt (2 ^ 64 - 1) (by norm_num)⟩

/-- C8: `None` is encoded as the single tag byte 0 and `Some v` as tag byte
1 followed by `v`'s encoding; decoding an option reads one tag byte,
returns none on 0, decodes the inner value on 1, fails with `InvalidFormat`
on any other tag, and propagates the tag read's own failure. -/
theorem c8_option_tag :
    encodeValue Value.vNone = [0] ∧
    (∀ v : Value, encodeValue (Value.vSome v) = 1 :: encodeValue v) ∧
    (∀ (s : Shape) (b b2 : ReadBuffer), b.read_u8 = .ok 0 b2 →
      decodeValue (Shape.sOption s) b = .ok Value.vNone b2) ∧
    (∀ (s : Shape) (b b2 : ReadBuffer), b.read_u8 = .ok 1 b2 →
      decodeValue (Shape.sOption s) b =
        match decodeValue s b2 with
        | .err e b3 => .err e b3
        | .ok v b3 => .ok (Value.vSome v) b3) ∧
    (∀ (s : Shape) (b b2 : ReadBuffer) (tag : Nat),
      b.read_u8 = .ok tag b2 → tag ≠ 0 → tag ≠ 1 →
      decodeValue (Shape.sOption s) b = .err (.invalidFormat badOptionMsg) b2) ∧
    (∀ (s : Shape) (b b2 : ReadBuffer) (e : Error), b.read_u8 = .err e b2 →
      decodeValue (Shape.sOption s) b = .err e b2) := by
  refine ⟨by simp [encodeValue], fun v => by simp [encodeValue], ?_, ?_, ?_, ?_⟩
  · intro s b b2 h
    simp only [decodeValue]
    rw [h]
    rfl
  · intro s b b2 h
    simp only [decodeValue]
    rw [h]
    rfl
  · intro s b b2 tag h h0 h1
    simp only [decodeValue]
    rw [h]
    simp [h0, h1]
  · intro s b b2 e h
    simp only [decodeValue]
    rw [h]

theorem c8_option_tag_witness :
    decodeValue (Shape.sOption Shape.sBool) ⟨[0], 0⟩ = .ok Value.vNone ⟨[0], 1⟩ ∧
    decodeValue (Shape.sOption Shape.sBool) ⟨[7], 0⟩ =
      .err (.invalidFormat badOptionMsg) ⟨[7], 1⟩ := by
  refine ⟨c8_option_tag.2.2.1 Shape.sBool ⟨[0], 0⟩ ⟨[0], 1⟩ (by decide), ?_⟩
  exact c8_option_tag.2.2.2.2.1 Shape.sBool ⟨[7], 0⟩ ⟨[7], 1⟩ 7
    (by decide) (by decide) (by decide)

/-- C9: `read_varint` does not leave the position unchanged on failure.  On
the single continuation byte `[128]` it fails with `UnexpectedEof`, but the
result's buffer has position 1, not the starting position 0: the claim that
every operation leaves the cursor untouched when it fails is false for the
composite reads. -/
theorem c9_read_varint_advances_on_failure :
    ReadBuffer.read_varint ⟨[128], 0⟩ = .err Error.unexpectedEof ⟨[128], 1⟩ ∧
    (⟨[128], 1⟩ : ReadBuffer).position ≠ (⟨[128], 0⟩ : ReadBuffer).position := by
  refine ⟨?_, by decide⟩
  simp +decide [ReadBuffer.read_varint, readVarintLoop, ReadBuffer.read_u8]

/-- C9 (amended): every read operation preserves the cursor invariant
`0 ≤ position ≤ length`: the resulting buffer keeps the same slice, never
moves the cursor backwards and never past the end.  On success the
single-bounds-check operations advance by exactly the bytes consumed, and
the primitive operations (`read_u8`, `read_bytes`, `skip`, `peek_u8`) leave
the buffer exactly unchanged on failure; composite operations built from
several primitive reads (such as `read_varint`) may leave the cursor
advanced past the successfully consumed prefix when a later step fails. -/
theorem c9_cursor_invariant_amended (b : ReadBuffer) (h : b.position ≤ b.data.length) :
    cursorOk b (b.read_u8).buf ∧
    (∀ len, cursorOk b ((b.read_bytes len)).buf) ∧
    cursorOk b (b.read_u16).buf ∧
    cursorOk b (b.read_u32).buf ∧
    cursorOk b (b.read_u64).buf ∧
    cursorOk b (b.read_varint).buf ∧
    cursorOk b (b.read_byte_slice).buf ∧
    cursorOk b (b.read_str).buf ∧
    cursorOk b (b.peek_u8).buf ∧
    (∀ n, cursorOk b ((b.skip n)).buf) ∧
    (∀ x b2, b.read_u8 = .ok x b2 → b2.data = b.data ∧ b2.position = b.position + 1) ∧
    (∀ len bs b2, b.read_bytes len = .ok bs b2 →
      b2.data = b.data ∧ b2.position = b.position + len) ∧
    (∀ n u b2, b.skip n = .ok u b2 → b2.data = b.data ∧ b2.position = b.position + n) ∧
    (∀ x b2, b.peek_u8 = .ok x b2 → b2 = b) ∧
    (∀ x b2, b.read_u8 = .err x b2 → b2 = b) ∧
    (∀ len x b2, b.read_bytes len = .err x b2 → b2 = b) ∧
    (∀ n x b2, b.skip n = .err x b2 → b2 = b) := by
  refine ⟨read_u8_cursor b h, fun len => read_bytes_cursor b len h,
    read_u16_cursor b h, read_u32_cursor b h, read_u64_cursor b h,
    read_varint_cursor b h, read_byte_slice_cursor b h, read_str_cursor b h,
    peek_u8_cursor b h, fun n => skip_cursor b n h, ?_, ?_, ?_, ?_, ?_, ?_, ?_⟩
  · intro x b2 hx
    rcases read_u8_cases b with ⟨_, heq⟩ | ⟨_, heq⟩ <;> rw [heq] at hx
    · simp at hx
    · cases hx
      exact ⟨rfl, rfl⟩
  · intro len bs b2 hx
    rcases read_bytes_cases b len with ⟨_, heq⟩ | ⟨_, heq⟩ <;> rw [heq] at hx
    · simp at hx
    · cases hx
      exact ⟨rfl, rfl⟩
  · intro n u b2 hx
    rcases skip_cases b n with ⟨_, heq⟩ | ⟨_, heq⟩ <;> rw [heq] at hx
    · simp at hx
    · cases hx
      exact ⟨rfl, rfl⟩
  · intro x b2 hx
    unfold ReadBuffer.peek_u8 at hx
    split at hx
    · simp at hx
    · cases hx
      rfl
  · intro x b2 hx
    rcases read_u8_cases b with ⟨_, heq⟩ | ⟨_, heq⟩ <;> rw [heq] at hx
    · cases hx
      rfl
    · simp at hx
  · intro len x b2 hx
    rcases read_bytes_cases b len with ⟨_, heq⟩ | ⟨_, heq⟩ <;> rw [heq] at hx
    · cases hx
      rfl
    · simp at hx
  · intro n x b2 hx
    rcases skip_cases b n with ⟨_, heq⟩ | ⟨_, heq⟩ <;> rw [heq] at hx
    · cases hx
      rfl
    · simp at hx

theorem c9_cursor_invariant_amended_witness :
    cursorOk ⟨[5, 6], 0⟩ ((ReadBuffer.read_varint ⟨[5, 6], 0⟩)).buf :=
  (c9_cursor_invariant_amended ⟨[5, 6], 0⟩ (by decide)).2.2.2.2.2.1

/-- C10: decoding `to_bytes v ++ suffix` does not return `v` for every value
`v` — for the tuple variant of C1 it fails outright, trailing bytes or not,
so the implicit claim is false in the generality stated. -/
theorem c10_trailing_bytes_tuple_variant :
    from_bytes (Shape.sEnum [VariantShape.tuple [Shape.sUInt .w8, Shape.sUInt .w8]])
      (to_bytes (Value.vVariant 0 (VariantValue.tuple [Value.vUInt .w8 1, Value.vUInt .w8 2]))
        ++ [0]) ≠
      .ok (Value.vVariant 0 (VariantValue.tuple [Value.vUInt .w8 1, Value.vUInt .w8 2])) := by
  simp +decide [to_bytes, MAGIC, VERSION, encodeValue, encodePayload, encodeList,
    writeVarint, leBytes, Wd.bytes, from_bytes, Deserializer.new, ReadBuffer.new,
    decodeValue, decodeVariant, ReadBuffer.read_varint, readVarintLoop,
    ReadBuffer.read_u8, decodeShapes]

/-- C10 (amended): for every well-formed value `v` without tuple variants
and every byte suffix, decoding `to_bytes v ++ suffix` at `v`'s shape
succeeds with exactly `v`, never inspecting the trailing bytes. -/
theorem c10_trailing_bytes_amended (s : Shape) (v : Value) (extra : List Nat)
    (hwf : wfValue s v = true) (hnt : noTV v = true) :
    from_bytes s (to_bytes v ++ extra) = .ok v :=
  from_bytes_to_bytes_noTV s v extra hwf hnt

theorem c10_trailing_bytes_amended_witness :
    from_bytes (Shape.sUInt .w8) (to_bytes (Value.vUInt .w8 42) ++ [1, 2, 3]) =
      .ok (Value.vUInt .w8 42) :=
  c10_trailing_bytes_amended (Shape.sUInt .w8) (Value.vUInt .w8 42) [1, 2, 3]
    (by simp +decide [wfValue]) (by simp [noTV])

end Nanobit
